import Mathlib

/-!
Verification of the scmstore specialized file store
(`eden/scm/lib/revisionstore/src/scmstore/specialized/file.rs`).

This file gives a shallow embedding of the fetch state machine and the
public facade of `FileStore`, translated from the Rust source, and proves
the stated properties of the specification against it.

Modelling conventions:
* machine integers and hashes are `Nat`; blobs (`minibytes::Bytes`) are `List Nat`;
* external collaborators (the indexed-log stores, LFS stores, memcache, the
  remote content API, the remote LFS transport and the legacy content store)
  are oracle functions supplied to the fetch orchestrator; their fallible
  operations return `Res`, the embedding of `anyhow::Result` with error
  values collapsed to numeric codes;
* `HashMap` / `HashSet` fields are association lists / lists with the same
  insert-or-replace semantics; tables that are only ever read pointwise
  (`pointer_origin`, `key_origin`) are functions into `Option`;
* a Rust `panic!` / `unwrap` / indexing panic is modelled as `Option.none`
  bubbling out of the operation that contains it.
-/

namespace Scm

/-- Embedding of `anyhow::Result`: error values are opaque numeric codes. -/
inductive Res (α : Type) where
  | ok (v : α)
  | err (e : Nat)
deriving DecidableEq, Repr

abbrev Bytes := List Nat
abbrev Sha256 := Nat
abbrev HgId := Nat

/-- `types::Key`: a path plus an `HgId`; equality and hashing on the pair. -/
structure Key where
  path : Nat
  hgid : HgId
deriving DecidableEq, Repr

/-- Model of the external `Metadata` record: a size and whether its flags mark
the record as an LFS pointer (`Metadata::is_lfs`). -/
structure Metadata where
  size : Option Nat
  is_lfs : Bool
deriving DecidableEq, Repr

def Metadata.default : Metadata := { size := none, is_lfs := false }

/-- `ExtStoredPolicy`: whether pointer-flagged indexed-log entries are used. -/
inductive ExtStoredPolicy where
  | use_
  | ignore
deriving DecidableEq, Repr

/-- `LocalStoreType`: scope of a store, local-only or cache/shared. -/
inductive LocalStoreType where
  | loc
  | cache
deriving DecidableEq, Repr

/-- `FileAuxData`: derived metadata, currently the content SHA-256. -/
structure FileAuxData where
  content_sha256 : Sha256
deriving DecidableEq, Repr

/-- `FileAttributes`: the attribute bitmask with flags `content`, `aux_data`. -/
structure FileAttributes where
  content : Bool
  aux_data : Bool
deriving DecidableEq, Repr

def FileAttributes.NONE : FileAttributes := ⟨false, false⟩

def FileAttributes.CONTENT : FileAttributes := ⟨true, false⟩

def FileAttributes.AUX : FileAttributes := ⟨false, true⟩

/-- `impl BitOr for FileAttributes`. -/
def FileAttributes.bitor (a b : FileAttributes) : FileAttributes :=
  ⟨a.content || b.content, a.aux_data || b.aux_data⟩

/-- `impl BitAnd for FileAttributes`. -/
def FileAttributes.bitand (a b : FileAttributes) : FileAttributes :=
  ⟨a.content && b.content, a.aux_data && b.aux_data⟩

/-- `impl Not for FileAttributes`. -/
def FileAttributes.not (a : FileAttributes) : FileAttributes :=
  ⟨!a.content, !a.aux_data⟩

/-- `impl Sub for FileAttributes`: set difference `self & !rhs`. -/
def FileAttributes.sub (a b : FileAttributes) : FileAttributes :=
  a.bitand b.not

/-- `FileAttributes::none`. -/
def FileAttributes.none (a : FileAttributes) : Bool :=
  a == FileAttributes.NONE

/-- `FileAttributes::any`. -/
def FileAttributes.any (a : FileAttributes) : Bool :=
  !(a == FileAttributes.NONE)

/-- `FileAttributes::all`. -/
def FileAttributes.all (a : FileAttributes) : Bool :=
  a.not == FileAttributes.NONE

/-- `FileAttributes::has`: `(attrs - *self).none()`. -/
def FileAttributes.has (a attrs : FileAttributes) : Bool :=
  (attrs.sub a).none

/-- `FileAttributes::with_computable`: aux data is computable from content. -/
def FileAttributes.with_computable (a : FileAttributes) : FileAttributes :=
  if a.content then a.bitor FileAttributes.AUX else a

/-- `LfsPointersEntry`: SHA-256, declared size and originating hgid. -/
structure LfsPointersEntry where
  sha256 : Sha256
  size : Nat
  hgid : HgId
deriving DecidableEq, Repr

/-- Model of the external `indexedlogdatastore::Entry`: a key, the (lazily
decoded, hence fallible) content bytes, and metadata. -/
structure Entry where
  key : Key
  content : Res Bytes
  metadata : Metadata
deriving DecidableEq, Repr

/-- `Entry::new`: a freshly built entry always decodes to its bytes. -/
def Entry.new (k : Key) (b : Bytes) (m : Metadata) : Entry :=
  { key := k, content := Res.ok b, metadata := m }

/-- `Entry::with_key`. -/
def Entry.with_key (e : Entry) (k : Key) : Entry :=
  { e with key := k }

/-- Model of `memcache::McData`: key, raw data and metadata. -/
structure McData where
  key : Key
  data : Bytes
  metadata : Metadata
deriving DecidableEq, Repr

/-- Model of `edenapi_types::FileEntry`: key, (fallible) data and metadata. -/
structure FileEntry where
  key : Key
  data : Res Bytes
  metadata : Metadata
deriving DecidableEq, Repr

/-- Modelled external `datastore::strip_metadata`: strips the copy-from
header; header handling is outside the core, so the model is the identity. -/
def strip_metadata (b : Bytes) : Bytes := b

/-- Modelled external `lfs::rebuild_metadata`: rebuilds the header-preserving
form from an LFS blob and its pointer; the model returns the blob. -/
def rebuild_metadata (b : Bytes) (_ptr : LfsPointersEntry) : Bytes := b

/-- Modelled external `ContentHash::sha256`: an opaque total hash. -/
def sha256_hash (b : Bytes) : Sha256 :=
  b.foldl (fun a x => a * 31 + x + 1) 7

/-- Modelled external `LfsPointersEntry::from_bytes`: a serialized pointer is
the two-element list `[sha256, size]`; anything else fails to parse. -/
def LfsPointersEntry.from_bytes (b : Bytes) (hgid : HgId) : Res LfsPointersEntry :=
  match b with
  | [s, z] => Res.ok { sha256 := s, size := z, hgid := hgid }
  | _ => Res.err 100

/-- `impl TryFrom<Entry> for LfsPointersEntry`: only pointer-flagged entries
convert. -/
def Entry.to_lfs_ptr (e : Entry) : Res LfsPointersEntry :=
  if e.metadata.is_lfs then
    match e.content with
    | Res.ok b => LfsPointersEntry.from_bytes b e.key.hgid
    | Res.err er => Res.err er
  else Res.err 101

/-- `impl TryFrom<McData> for LfsPointersEntry`. -/
def McData.to_lfs_ptr (e : McData) : Res LfsPointersEntry :=
  if e.metadata.is_lfs then LfsPointersEntry.from_bytes e.data e.key.hgid
  else Res.err 102

/-- `impl TryFrom<FileEntry> for LfsPointersEntry`. -/
def FileEntry.to_lfs_ptr (e : FileEntry) : Res LfsPointersEntry :=
  if e.metadata.is_lfs then
    match e.data with
    | Res.ok b => LfsPointersEntry.from_bytes b e.key.hgid
    | Res.err er => Res.err er
  else Res.err 103

/-- `LazyFile`: the five-variant lazy file representation. -/
inductive LazyFile where
  | contentStore (blob : Bytes) (meta : Metadata)
  | indexedLog (e : Entry)
  | lfs (blob : Bytes) (ptr : LfsPointersEntry)
  | edenApi (e : FileEntry)
  | memcache (e : McData)
deriving DecidableEq, Repr

/-- `LazyFile::hgid`. -/
def LazyFile.hgid : LazyFile → Option HgId
  | .contentStore _ _ => Option.none
  | .indexedLog e => some e.key.hgid
  | .lfs _ ptr => some ptr.hgid
  | .edenApi e => some e.key.hgid
  | .memcache e => some e.key.hgid

/-- `LazyFile::file_content`: content as in the working copy (header
stripped); LFS blobs are returned verbatim. -/
def LazyFile.file_content : LazyFile → Res Bytes
  | .indexedLog e =>
    match e.content with
    | Res.ok b => Res.ok (strip_metadata b)
    | Res.err er => Res.err er
  | .lfs blob _ => Res.ok blob
  | .contentStore blob _ => Res.ok (strip_metadata blob)
  | .edenApi e =>
    match e.data with
    | Res.ok b => Res.ok (strip_metadata b)
    | Res.err er => Res.err er
  | .memcache e => Res.ok (strip_metadata e.data)

/-- `LazyFile::hg_content`: the header-preserving Mercurial blob form. -/
def LazyFile.hg_content : LazyFile → Res Bytes
  | .indexedLog e => e.content
  | .lfs blob ptr => Res.ok (rebuild_metadata blob ptr)
  | .contentStore blob _ => Res.ok blob
  | .edenApi e => e.data
  | .memcache e => Res.ok e.data

/-- `LazyFile::aux_data`: the LFS variant reads the pointer SHA-256, the
others hash the file content. -/
def LazyFile.aux_data (lf : LazyFile) : Res FileAuxData :=
  match lf with
  | .lfs _ ptr => Res.ok { content_sha256 := ptr.sha256 }
  | _ =>
    match lf.file_content with
    | Res.ok b => Res.ok { content_sha256 := sha256_hash b }
    | Res.err er => Res.err er

/-- `LazyFile::metadata`: LFS variants synthesize metadata from the pointer. -/
def LazyFile.metadata : LazyFile → Res Metadata
  | .indexedLog e => Res.ok e.metadata
  | .lfs _ ptr => Res.ok { size := some ptr.size, is_lfs := false }
  | .contentStore _ meta => Res.ok meta
  | .edenApi e => Res.ok e.metadata
  | .memcache e => Res.ok e.metadata

/-- `LazyFile::indexedlog_cache_entry`: only indexed-log, EdenApi and
memcache variants project to a writable entry, re-stamped to the given key. -/
def LazyFile.indexedlog_cache_entry (lf : LazyFile) (k : Key) : Res (Option Entry) :=
  match lf with
  | .indexedLog e => Res.ok (some (e.with_key k))
  | .edenApi e =>
    match e.data with
    | Res.ok b => Res.ok (some (Entry.new k b e.metadata))
    | Res.err er => Res.err er
  | .memcache e => Res.ok (some ((Entry.new e.key e.data e.metadata).with_key k))
  | .lfs _ _ => Res.ok Option.none
  | .contentStore _ _ => Res.ok Option.none

/-- `StoreFile`: up to one content value and one aux-data value. -/
structure StoreFile where
  content : Option LazyFile
  aux_data : Option FileAuxData
deriving DecidableEq, Repr

/-- `StoreFile::attrs`. -/
def StoreFile.attrs (f : StoreFile) : FileAttributes :=
  ⟨f.content.isSome, f.aux_data.isSome⟩

/-- `StoreFile::mask`: keep only the fields inside `attrs`. -/
def StoreFile.mask (f : StoreFile) (a : FileAttributes) : StoreFile :=
  { content := if a.content then f.content else Option.none,
    aux_data := if a.aux_data then f.aux_data else Option.none }

/-- `impl BitOr for StoreFile`: left operand fields win, right fills gaps. -/
def StoreFile.bitor (x y : StoreFile) : StoreFile :=
  { content := x.content.or y.content, aux_data := x.aux_data.or y.aux_data }

/-- `impl Default for StoreFile`. -/
def StoreFile.default : StoreFile :=
  { content := Option.none, aux_data := Option.none }

/-- `impl From<FileAuxData> for StoreFile`. -/
def StoreFile.from_aux (v : FileAuxData) : StoreFile :=
  { content := Option.none, aux_data := some v }

/-- `impl From<LazyFile> for StoreFile`. -/
def StoreFile.from_lazy (v : LazyFile) : StoreFile :=
  { content := some v, aux_data := Option.none }

/-- `StoreFile::compute_aux_data`: errors when no content is available. -/
def StoreFile.compute_aux_data (f : StoreFile) : Res StoreFile :=
  match f.content with
  | Option.none => Res.err 104
  | some lf =>
    match lf.aux_data with
    | Res.ok aux => Res.ok { f with aux_data := some aux }
    | Res.err er => Res.err er

/-- `StoreKey`: the two key forms exchanged with stores. -/
inductive StoreKey where
  | hgId (k : Key)
  | content (h : Sha256) (k : Option Key)
deriving DecidableEq, Repr

/-- `StoreKey::maybe_into_key`. -/
def StoreKey.maybe_into_key : StoreKey → Option Key
  | .hgId k => some k
  | .content _ k => k

/-- `LfsStoreEntry`: what an LFS store returns for a key. -/
inductive LfsStoreEntry where
  | pointerAndBlob (ptr : LfsPointersEntry) (blob : Bytes)
  | pointerOnly (ptr : LfsPointersEntry)
deriving DecidableEq, Repr

/-! ## Association-list embedding of the `HashMap` fields -/

/-- Lookup in an association list (`HashMap::get`). -/
def alookup {α : Type} (l : List (Key × α)) (k : Key) : Option α :=
  (l.find? (fun p => decide (p.1 = k))).map Prod.snd

/-- `HashMap::insert`: replace the value when present, append otherwise. -/
def ainsert {α : Type} (l : List (Key × α)) (k : Key) (v : α) : List (Key × α) :=
  if (l.find? (fun p => decide (p.1 = k))).isSome then
    l.map (fun p => if p.1 = k then (p.1, v) else p)
  else l ++ [(k, v)]

/-- `HashMap::remove`. -/
def aremove {α : Type} (l : List (Key × α)) (k : Key) : List (Key × α) :=
  l.filter (fun p => decide (p.1 ≠ k))

/-- `HashSet::insert` for key sets. -/
def insert_key (l : List Key) (k : Key) : List Key :=
  if k ∈ l then l else l ++ [k]

/-! ## Fetch state -/

/-- `FetchErrors`: keyed errors plus errors not attributable to one key. -/
structure FetchErrors where
  fetch_errors : List (Key × List Nat)
  other_errors : List Nat

/-- `FetchErrors::keyed_error`: `entry(key).or_insert_with(Vec::new).push(err)`. -/
def FetchErrors.keyed_error (e : FetchErrors) (k : Key) (er : Nat) : FetchErrors :=
  { e with fetch_errors :=
      if (e.fetch_errors.find? (fun p => decide (p.1 = k))).isSome then
        e.fetch_errors.map (fun p => if p.1 = k then (p.1, p.2 ++ [er]) else p)
      else e.fetch_errors ++ [(k, [er])] }

/-- `FetchErrors::other_error`. -/
def FetchErrors.other_error (e : FetchErrors) (er : Nat) : FetchErrors :=
  { e with other_errors := e.other_errors ++ [er] }

/-- `FetchState`: the per-request working set.  `pending` is the requested
key set not yet satisfied; `pointer_origin` and `key_origin` are the origin
tables (read pointwise, hence functions). -/
structure FetchState where
  pending : List Key
  request_attrs : FileAttributes
  found : List (Key × StoreFile)
  lfs_pointers : List (Key × LfsPointersEntry)
  pointer_origin : Sha256 → Option LocalStoreType
  key_origin : Key → Option LocalStoreType
  errors : FetchErrors
  found_in_memcache : List Key
  found_in_edenapi : List Key
  computed_aux_data : List (Key × LocalStoreType)
  extstored_policy : ExtStoredPolicy
  compute_aux_data : Bool

/-- `FetchState::new`: note that `compute_aux_data` is hardcoded `true`. -/
def FetchState.new (keys : List Key) (p : ExtStoredPolicy) (attrs : FileAttributes) :
    FetchState :=
  { pending := keys
    request_attrs := attrs
    found := []
    lfs_pointers := []
    pointer_origin := fun _ => Option.none
    key_origin := fun _ => Option.none
    errors := { fetch_errors := [], other_errors := [] }
    found_in_memcache := []
    found_in_edenapi := []
    computed_aux_data := []
    extstored_policy := p
    compute_aux_data := true }

def FetchState.keyed_error (s : FetchState) (k : Key) (er : Nat) : FetchState :=
  { s with errors := s.errors.keyed_error k er }

def FetchState.other_error (s : FetchState) (er : Nat) : FetchState :=
  { s with errors := s.errors.other_error er }

/-- `FetchState::pending` (the progress predicate; renamed to avoid clashing
with the field of the same name). -/
def FetchState.pending_for (s : FetchState) (key : Key) (fetchable : FileAttributes) : Bool :=
  if fetchable.none then false
  else
    let available := (alookup s.found key).elim FileAttributes.NONE StoreFile.attrs
    let available2 := if s.compute_aux_data then available.with_computable else available
    let fetchable2 := if s.compute_aux_data then fetchable.with_computable else fetchable
    let missing := s.request_attrs.sub available2
    let actionable := missing.bitand fetchable2
    actionable.any

/-- `FetchState::pending_all`. -/
def FetchState.pending_all (s : FetchState) (fetchable : FileAttributes) : List Key :=
  if fetchable.none then []
  else s.pending.filter (fun k => s.pending_for k fetchable)

/-- `FetchState::pending_nonlfs`: also excludes keys with a discovered
pointer. -/
def FetchState.pending_nonlfs (s : FetchState) (fetchable : FileAttributes) : List Key :=
  if fetchable.none then []
  else (s.pending.filter (fun k => (alookup s.lfs_pointers k).isNone)).filter
    (fun k => s.pending_for k fetchable)

/-- `FetchState::storekey`: content-addressed form when a pointer is known. -/
def FetchState.storekey (s : FetchState) (k : Key) : StoreKey :=
  match alookup s.lfs_pointers k with
  | some ptr => StoreKey.content ptr.sha256 (some k)
  | Option.none => StoreKey.hgId k

/-- `FetchState::pending_storekey`. -/
def FetchState.pending_storekey (s : FetchState) (fetchable : FileAttributes) : List StoreKey :=
  if fetchable.none then []
  else (s.pending.filter (fun k => s.pending_for k fetchable)).map s.storekey

/-- `FetchState::mark_complete`: drop from `pending`; drop a discovered
pointer and its origin entry. -/
def FetchState.mark_complete (s : FetchState) (k : Key) : FetchState :=
  let s1 := { s with pending := s.pending.filter (fun j => decide (j ≠ k)) }
  match alookup s1.lfs_pointers k with
  | some ptr =>
    { s1 with
      lfs_pointers := aremove s1.lfs_pointers k
      pointer_origin := fun h => if h = ptr.sha256 then Option.none else s1.pointer_origin h }
  | Option.none => s1

/-- `FetchState::found_pointer`: `Cache` overwrites, `Local` only fills a
vacant entry. -/
def FetchState.found_pointer (s : FetchState) (k : Key) (ptr : LfsPointersEntry)
    (typ : LocalStoreType) : FetchState :=
  let po :=
    match typ with
    | LocalStoreType.cache =>
      fun h => if h = ptr.sha256 then some LocalStoreType.cache else s.pointer_origin h
    | LocalStoreType.loc =>
      match s.pointer_origin ptr.sha256 with
      | some _ => s.pointer_origin
      | Option.none =>
        fun h => if h = ptr.sha256 then some LocalStoreType.loc else s.pointer_origin h
  { s with pointer_origin := po, lfs_pointers := ainsert s.lfs_pointers k ptr }

/-- `FetchState::found_attributes`: record the key origin, merge the new
`StoreFile` over the old record (new fields win), and mark complete when all
requested attributes are present. -/
def FetchState.found_attributes (s : FetchState) (k : Key) (sf : StoreFile)
    (typ : Option LocalStoreType) : FetchState :=
  let s0 := { s with
    key_origin := fun j => if j = k then some (typ.getD LocalStoreType.cache) else s.key_origin j }
  match alookup s0.found k with
  | some r =>
    let merged := sf.bitor r
    let s1 := { s0 with found := s0.found.map (fun p => if p.1 = k then (p.1, merged) else p) }
    if merged.attrs.has s1.request_attrs then s1.mark_complete k else s1
  | Option.none =>
    let s1 := { s0 with found := s0.found ++ [(k, sf)] }
    if sf.attrs.has s1.request_attrs then s1.mark_complete k else s1

/-! ## Store oracles

External stores are modelled as oracle functions with the operation shapes
the core requires (spec section 6). -/

abbrev IndexedLogOracle := Key → Res (Option Entry)

abbrev LfsFetchFun := StoreKey → Res (Option LfsStoreEntry)

/-- An LFS store handle: `fetch_available` is the view consulted by the
ordinary `fetch_lfs` passes, `retry_view` the view after the remote LFS
transport has deposited blobs into the store (the store is external mutable
state, so the post-write view is a second oracle). -/
structure LfsStoreOracle where
  fetch_available : LfsFetchFun
  retry_view : LfsFetchFun

abbrev MemcacheOracle := List Key → Res (List (Res McData))

abbrev EdenApiOracle := List Key → Res (List FileEntry)

/-- `LfsRemoteInner::batch_fetch`: given the requested `(sha256, size)`
pairs, the transport yields the blobs it delivers to the callback. -/
abbrev LfsRemoteOracle := List (Sha256 × Nat) → Res (List (Sha256 × Bytes))

structure ContentStoreOracle where
  prefetch : List StoreKey → Res Unit
  get : StoreKey → Res (Option Bytes)
  get_meta : StoreKey → Res (Option Metadata)

/-! ## Per-source ingest handlers -/

/-- `FetchState::found_indexedlog`. -/
def FetchState.found_indexedlog (s : FetchState) (k : Key) (entry : Entry)
    (typ : LocalStoreType) : FetchState :=
  if entry.metadata.is_lfs then
    if s.extstored_policy = ExtStoredPolicy.use_ then
      match entry.to_lfs_ptr with
      | Res.ok ptr => s.found_pointer k ptr typ
      | Res.err e => s.keyed_error k e
    else s
  else s.found_attributes k (StoreFile.from_lazy (LazyFile.indexedLog entry)) (some typ)

def FetchState.fetch_indexedlog_go (store : IndexedLogOracle) (typ : LocalStoreType) :
    List Key → FetchState → FetchState
  | [], s => s
  | k :: rest, s =>
    match store k with
    | Res.ok (some entry) =>
      FetchState.fetch_indexedlog_go store typ rest (s.found_indexedlog k entry typ)
    | Res.ok Option.none => FetchState.fetch_indexedlog_go store typ rest s
    | Res.err e => FetchState.fetch_indexedlog_go store typ rest (s.keyed_error k e)

/-- `FetchState::fetch_indexedlog`. -/
def FetchState.fetch_indexedlog (s : FetchState) (store : IndexedLogOracle)
    (typ : LocalStoreType) : FetchState :=
  let pending := s.pending_nonlfs FileAttributes.CONTENT
  if pending.isEmpty then s
  else FetchState.fetch_indexedlog_go store typ pending s

/-- Modelled external `serde_json::from_slice::<FileAuxData>`: an aux record
is serialized as the singleton list of its SHA-256. -/
def parse_aux (b : Bytes) : Res FileAuxData :=
  match b with
  | [s] => Res.ok { content_sha256 := s }
  | _ => Res.err 105

/-- Modelled external `serde_json::to_vec::<FileAuxData>`. -/
def serde_aux (a : FileAuxData) : Bytes := [a.content_sha256]

/-- The fallible part of `FetchState::found_aux_indexedlog`. -/
def found_aux_result (entry : Entry) : Res FileAuxData :=
  match entry.content with
  | Res.ok b => parse_aux b
  | Res.err er => Res.err er

/-- Loop of `FetchState::fetch_aux_indexedlog_inner`; the second component
is the error with which the inner function aborts (the `?` operator), if
any. -/
def FetchState.fetch_aux_indexedlog_go (store : IndexedLogOracle) :
    List Key → FetchState → FetchState × Option Nat
  | [], s => (s, Option.none)
  | k :: rest, s =>
    match store k with
    | Res.err e => FetchState.fetch_aux_indexedlog_go store rest (s.keyed_error k e)
    | Res.ok Option.none => FetchState.fetch_aux_indexedlog_go store rest s
    | Res.ok (some entry) =>
      match found_aux_result entry with
      | Res.err e => (s, some e)
      | Res.ok aux =>
        FetchState.fetch_aux_indexedlog_go store rest
          (s.found_attributes k (StoreFile.from_aux aux) Option.none)

/-- `FetchState::fetch_aux_indexedlog` (wrapper catching the inner error). -/
def FetchState.fetch_aux_indexedlog (s : FetchState) (store : IndexedLogOracle) : FetchState :=
  let pending := s.pending_all FileAttributes.AUX
  if pending.isEmpty then s
  else
    match FetchState.fetch_aux_indexedlog_go store pending s with
    | (s1, Option.none) => s1
    | (s1, some e) => s1.other_error e

/-- `FetchState::found_lfs`. -/
def FetchState.found_lfs (s : FetchState) (k : Key) (entry : LfsStoreEntry)
    (typ : LocalStoreType) : FetchState :=
  match entry with
  | .pointerAndBlob ptr blob =>
    s.found_attributes k (StoreFile.from_lazy (LazyFile.lfs blob ptr)) (some typ)
  | .pointerOnly ptr => s.found_pointer k ptr typ

/-- Loop of `FetchState::fetch_lfs`; `none` is the
`maybe_into_key().expect(..)` panic (unreachable for keys coming from
`pending_storekey`). -/
def FetchState.fetch_lfs_go (store : LfsFetchFun) (typ : LocalStoreType) :
    List StoreKey → FetchState → Option FetchState
  | [], s => some s
  | sk :: rest, s =>
    match sk.maybe_into_key with
    | Option.none => Option.none
    | some k =>
      match store sk with
      | Res.ok (some entry) => FetchState.fetch_lfs_go store typ rest (s.found_lfs k entry typ)
      | Res.ok Option.none => FetchState.fetch_lfs_go store typ rest s
      | Res.err e => FetchState.fetch_lfs_go store typ rest (s.keyed_error k e)

/-- `FetchState::fetch_lfs`. -/
def FetchState.fetch_lfs (s : FetchState) (store : LfsFetchFun) (typ : LocalStoreType) :
    Option FetchState :=
  let pending := s.pending_storekey FileAttributes.CONTENT
  if pending.isEmpty then some s
  else FetchState.fetch_lfs_go store typ pending s

/-- `FetchState::found_memcache`. -/
def FetchState.found_memcache (s : FetchState) (entry : McData) : FetchState :=
  let k := entry.key
  if entry.metadata.is_lfs then
    match entry.to_lfs_ptr with
    | Res.ok ptr => s.found_pointer k ptr LocalStoreType.cache
    | Res.err e => s.keyed_error k e
  else
    let s1 := { s with found_in_memcache := insert_key s.found_in_memcache k }
    s1.found_attributes k (StoreFile.from_lazy (LazyFile.memcache entry)) Option.none

/-- `FetchState::fetch_memcache` (with the `inner` error wrapper inlined). -/
def FetchState.fetch_memcache (s : FetchState) (store : MemcacheOracle) : FetchState :=
  let pending := s.pending_nonlfs FileAttributes.CONTENT
  if pending.isEmpty then s
  else
    match store pending with
    | Res.err e => s.other_error e
    | Res.ok results =>
      results.foldl
        (fun s1 r =>
          match r with
          | Res.ok d => s1.found_memcache d
          | Res.err e => s1.other_error e) s

/-- `FetchState::found_edenapi`. -/
def FetchState.found_edenapi (s : FetchState) (entry : FileEntry) : FetchState :=
  let k := entry.key
  if entry.metadata.is_lfs then
    match entry.to_lfs_ptr with
    | Res.ok ptr => s.found_pointer k ptr LocalStoreType.cache
    | Res.err e => s.keyed_error k e
  else
    let s1 := { s with found_in_edenapi := insert_key s.found_in_edenapi k }
    s1.found_attributes k (StoreFile.from_lazy (LazyFile.edenApi entry)) Option.none

/-- `FetchState::fetch_edenapi` (with the `inner` error wrapper inlined). -/
def FetchState.fetch_edenapi (s : FetchState) (store : EdenApiOracle) : FetchState :=
  let pending := s.pending_nonlfs FileAttributes.CONTENT
  if pending.isEmpty then s
  else
    match store pending with
    | Res.err e => s.other_error e
    | Res.ok entries => entries.foldl (fun s1 e => s1.found_edenapi e) s

/-- The remote-LFS completion callback, run over the delivered blobs.
Results: `none` models the `expect` panic (a `Local`/`Cache` pointer with no
corresponding local store handle); `some (some e)` a callback error (a
SHA-256 with no pointer-origin entry) that fails the batch; `some none`
success.  The blob writes themselves go to the external LFS stores, whose
post-write view is the `retry_view` oracle. -/
def run_lfs_callback (po : Sha256 → Option LocalStoreType) (has_local has_cache : Bool) :
    List (Sha256 × Bytes) → Option (Option Nat)
  | [] => some Option.none
  | (sha, _) :: rest =>
    match po sha with
    | Option.none => some (some 106)
    | some LocalStoreType.loc =>
      if has_local then run_lfs_callback po has_local has_cache rest else Option.none
    | some LocalStoreType.cache =>
      if has_cache then run_lfs_callback po has_local has_cache rest else Option.none

/-- `FetchState::fetch_lfs_remote` (with `inner` and its error wrapper
inlined): gather `(sha256, size)` pairs, run the transport, then retry
`fetch_lfs` against the cache and local stores to pick up mmap-backed
blobs. -/
def FetchState.fetch_lfs_remote (s : FetchState) (store : LfsRemoteOracle)
    (loc cache : Option LfsStoreOracle) : Option FetchState :=
  let pending := s.lfs_pointers.map (fun p => (p.2.sha256, p.2.size))
  if pending.isEmpty then some s
  else
    match store pending with
    | Res.err e => some (s.other_error e)
    | Res.ok deliveries =>
      match run_lfs_callback s.pointer_origin loc.isSome cache.isSome deliveries with
      | Option.none => Option.none
      | some (some e) => some (s.other_error e)
      | some Option.none =>
        let r1 :=
          match cache with
          | some st => s.fetch_lfs st.retry_view LocalStoreType.cache
          | Option.none => some s
        match r1 with
        | Option.none => Option.none
        | some s1 =>
          match loc with
          | some st => s1.fetch_lfs st.retry_view LocalStoreType.loc
          | Option.none => some s1

/-- `FetchState::found_contentstore`: pointer-flagged records are dropped. -/
def FetchState.found_contentstore (s : FetchState) (k : Key) (blob : Bytes)
    (meta : Metadata) : FetchState :=
  if meta.is_lfs then s
  else s.found_attributes k (StoreFile.from_lazy (LazyFile.contentStore blob meta)) Option.none

def FetchState.fetch_contentstore_go (store : ContentStoreOracle) :
    List StoreKey → FetchState → Option FetchState
  | [], s => some s
  | sk :: rest, s =>
    match sk.maybe_into_key with
    | Option.none => Option.none
    | some k =>
      match store.get sk with
      | Res.err e => FetchState.fetch_contentstore_go store rest (s.keyed_error k e)
      | Res.ok ob =>
        match store.get_meta sk with
        | Res.err e => FetchState.fetch_contentstore_go store rest (s.keyed_error k e)
        | Res.ok om =>
          match ob, om with
          | some b, some m =>
            FetchState.fetch_contentstore_go store rest (s.found_contentstore k b m)
          | _, _ => FetchState.fetch_contentstore_go store rest s

/-- `FetchState::fetch_contentstore` (with the `inner` error wrapper
inlined). -/
def FetchState.fetch_contentstore (s : FetchState) (store : ContentStoreOracle) :
    Option FetchState :=
  let pending := s.pending_storekey FileAttributes.CONTENT
  if pending.isEmpty then some s
  else
    match store.prefetch pending with
    | Res.err e => some (s.other_error e)
    | Res.ok _ => FetchState.fetch_contentstore_go store pending s

/-! ## Derivation pass -/

/-- Loop body of `FetchState::derive_computable`, iterating over the entries
of `found` and rebuilding them in `acc`.  `none` is the panic of the
unchecked indexing `self.key_origin[key]`.  The completion check duplicates
`mark_complete` as the source does (it touches only `pending`,
`lfs_pointers` and `pointer_origin`, so the shared helper is reused). -/
def FetchState.derive_go (ra : FileAttributes) (acc : List (Key × StoreFile)) :
    List (Key × StoreFile) → FetchState → Option FetchState
  | [], s => some { s with found := acc }
  | (k, v) :: rest, s =>
    let step : Option (StoreFile × FetchState) :=
      if (v.attrs.with_computable.bitand (ra.sub v.attrs)).aux_data then
        match v.compute_aux_data with
        | Res.err e => some (v, s.keyed_error k e)
        | Res.ok v2 =>
          match s.key_origin k with
          | Option.none => Option.none
          | some o =>
            some (v2, { s with computed_aux_data := ainsert s.computed_aux_data k o })
      else some (v, s)
    match step with
    | Option.none => Option.none
    | some (v3, s3) =>
      let s4 := if v3.attrs.has ra then s3.mark_complete k else s3
      FetchState.derive_go ra (acc ++ [(k, v3)]) rest s4

/-- `FetchState::derive_computable`. -/
def FetchState.derive_computable (s : FetchState) : Option FetchState :=
  if s.compute_aux_data then FetchState.derive_go s.request_attrs [] s.found s
  else some s

/-! ## Write-back pass -/

/-- The records the write-back pass hands to the external cache stores. -/
structure CacheWrites where
  memcache_writes : List McData
  indexedlog_cache_writes : List Entry
  aux_cache_writes : List Entry
  aux_local_writes : List Entry
deriving DecidableEq, Repr

def CacheWrites.empty : CacheWrites := ⟨[], [], [], []⟩

/-- Model of the external `impl TryFrom<Entry> for McData`. -/
def entry_to_mcdata (e : Entry) : Res McData :=
  match e.content with
  | Res.ok b => Res.ok { key := e.key, data := b, metadata := e.metadata }
  | Res.err er => Res.err er

/-- `write_to_cache` loop over `found_in_edenapi`: `none` is the panic of
the unchecked indexing `self.found[&key]`. -/
def FetchState.wtc_edenapi_go (s : FetchState) (use_ilog use_mc : Bool) :
    List Key → CacheWrites → Option CacheWrites
  | [], w => some w
  | k :: rest, w =>
    match alookup s.found k with
    | Option.none => Option.none
    | some sf =>
      match sf.content with
      | Option.none => s.wtc_edenapi_go use_ilog use_mc rest w
      | some lf =>
        match lf.indexedlog_cache_entry k with
        | Res.ok (some ce) =>
          let w1 :=
            if use_mc then
              match entry_to_mcdata ce with
              | Res.ok md => { w with memcache_writes := w.memcache_writes ++ [md] }
              | Res.err _ => w
            else w
          let w2 :=
            if use_ilog then
              { w1 with indexedlog_cache_writes := w1.indexedlog_cache_writes ++ [ce] }
            else w1
          s.wtc_edenapi_go use_ilog use_mc rest w2
        | _ => s.wtc_edenapi_go use_ilog use_mc rest w

/-- `write_to_cache` loop over `found_in_memcache`. -/
def FetchState.wtc_memcache_go (s : FetchState) (use_ilog : Bool) :
    List Key → CacheWrites → Option CacheWrites
  | [], w => some w
  | k :: rest, w =>
    match alookup s.found k with
    | Option.none => Option.none
    | some sf =>
      match sf.content with
      | Option.none => s.wtc_memcache_go use_ilog rest w
      | some lf =>
        match lf.indexedlog_cache_entry k with
        | Res.ok (some ce) =>
          let w1 :=
            if use_ilog then
              { w with indexedlog_cache_writes := w.indexedlog_cache_writes ++ [ce] }
            else w
          s.wtc_memcache_go use_ilog rest w1
        | _ => s.wtc_memcache_go use_ilog rest w

/-- `write_to_cache` loop over `computed_aux_data`: the first `none` is the
indexing panic, the second the `aux_data.as_ref().unwrap()` panic. -/
def FetchState.wtc_aux_go (s : FetchState) (use_aux_cache use_aux_local : Bool) :
    List (Key × LocalStoreType) → CacheWrites → Option CacheWrites
  | [], w => some w
  | (k, origin) :: rest, w =>
    match alookup s.found k with
    | Option.none => Option.none
    | some sf =>
      match sf.aux_data with
      | Option.none => Option.none
      | some aux =>
        let entry := Entry.new k (serde_aux aux) Metadata.default
        let w1 :=
          match origin with
          | LocalStoreType.cache =>
            if use_aux_cache then { w with aux_cache_writes := w.aux_cache_writes ++ [entry] }
            else w
          | LocalStoreType.loc =>
            if use_aux_local then { w with aux_local_writes := w.aux_local_writes ++ [entry] }
            else w
        s.wtc_aux_go use_aux_cache use_aux_local rest w1

/-- `FetchState::write_to_cache`: drain the three promotion queues into the
configured cache tiers; all write errors are swallowed. -/
def FetchState.write_to_cache (s : FetchState)
    (use_ilog use_mc use_aux_cache use_aux_local : Bool) :
    Option (FetchState × CacheWrites) :=
  match s.wtc_edenapi_go use_ilog use_mc s.found_in_edenapi CacheWrites.empty with
  | Option.none => Option.none
  | some w1 =>
    match s.wtc_memcache_go use_ilog s.found_in_memcache w1 with
    | Option.none => Option.none
    | some w2 =>
      match s.wtc_aux_go use_aux_cache use_aux_local s.computed_aux_data w2 with
      | Option.none => Option.none
      | some w3 =>
        some ({ s with found_in_edenapi := [], found_in_memcache := [],
                       computed_aux_data := [] }, w3)

/-! ## Finish -/

/-- `FileStoreFetch`: the fetch result record. -/
structure FileStoreFetch where
  complete : List (Key × StoreFile)
  incomplete : List (Key × List Nat)
  other_errors : List Nat

/-- `incomplete.entry(key).or_insert_with(Vec::new)`. -/
def or_insert_empty (l : List (Key × List Nat)) (k : Key) : List (Key × List Nat) :=
  if (l.find? (fun p => decide (p.1 = k))).isSome then l else l ++ [(k, [])]

/-- `FetchState::finish`: pending keys are dropped from `found` and given a
(possibly empty) error list; keys that were found are masked to the request
and removed from the error map. -/
def FetchState.finish (s : FetchState) : FileStoreFetch :=
  let incomplete1 := s.pending.foldl or_insert_empty s.errors.fetch_errors
  let found1 := s.found.filter (fun p => decide (p.1 ∉ s.pending))
  let complete := found1.map (fun p => (p.1, p.2.mask s.request_attrs))
  let incomplete2 := incomplete1.filter (fun q => decide (∀ p ∈ found1, p.1 ≠ q.1))
  { complete := complete, incomplete := incomplete2,
    other_errors := s.errors.other_errors }

/-! ## The fetch orchestrator -/

/-- `FileStore`: configuration plus the optional store handles. -/
structure FileStore where
  extstored_policy : ExtStoredPolicy
  lfs_threshold_bytes : Option Nat
  cache_to_local_cache : Bool
  cache_to_memcache : Bool
  indexedlog_local : Option IndexedLogOracle
  lfs_local : Option LfsStoreOracle
  indexedlog_cache : Option IndexedLogOracle
  lfs_cache : Option LfsStoreOracle
  memcache : Option MemcacheOracle
  lfs_remote : Option LfsRemoteOracle
  edenapi : Option EdenApiOracle
  contentstore : Option ContentStoreOracle
  aux_local : Option IndexedLogOracle
  aux_cache : Option IndexedLogOracle

/-- Tags naming the steps the orchestrator runs, in the order it runs them. -/
inductive StoreTag where
  | aux_cache
  | aux_local
  | indexedlog_cache
  | indexedlog_local
  | lfs_cache
  | lfs_local
  | memcache
  | edenapi
  | lfs_remote
  | contentstore
  | derivation
  | writeback
deriving DecidableEq, Repr

/-- One orchestrator step: when the store handle is configured, run the
phase on the running state and record its tag (the tag marks the
orchestrator invoking the phase). -/
def phase_step {σ : Type} (o : Option σ) (t : StoreTag)
    (f : σ → FetchState → Option FetchState) (x : Option FetchState × List StoreTag) :
    Option FetchState × List StoreTag :=
  match o with
  | some st => (x.1.bind (f st), x.2 ++ [t])
  | Option.none => x

/-- The ten store consultations of `FileStore::fetch`, in source order. -/
def FileStore.run_stores (fs : FileStore) (s0 : FetchState) :
    Option FetchState × List StoreTag :=
  phase_step fs.contentstore StoreTag.contentstore (fun st s => s.fetch_contentstore st)
    (phase_step fs.lfs_remote StoreTag.lfs_remote
      (fun st s => s.fetch_lfs_remote st fs.lfs_local fs.lfs_cache)
      (phase_step fs.edenapi StoreTag.edenapi (fun st s => some (s.fetch_edenapi st))
        (phase_step fs.memcache StoreTag.memcache (fun st s => some (s.fetch_memcache st))
          (phase_step fs.lfs_local StoreTag.lfs_local
            (fun st s => s.fetch_lfs st.fetch_available LocalStoreType.loc)
            (phase_step fs.lfs_cache StoreTag.lfs_cache
              (fun st s => s.fetch_lfs st.fetch_available LocalStoreType.cache)
              (phase_step fs.indexedlog_local StoreTag.indexedlog_local
                (fun st s => some (s.fetch_indexedlog st LocalStoreType.loc))
                (phase_step fs.indexedlog_cache StoreTag.indexedlog_cache
                  (fun st s => some (s.fetch_indexedlog st LocalStoreType.cache))
                  (phase_step fs.aux_local StoreTag.aux_local
                    (fun st s => some (s.fetch_aux_indexedlog st))
                    (phase_step fs.aux_cache StoreTag.aux_cache
                      (fun st s => some (s.fetch_aux_indexedlog st))
                      (some s0, []))))))))))

/-- `FileStore::fetch` with the orchestration trace: stores in fixed order,
then the derivation pass, then the write-back pass, then `finish`. -/
def FileStore.fetch_traced (fs : FileStore) (keys : List Key) (attrs : FileAttributes) :
    Option FileStoreFetch × List StoreTag :=
  let r := fs.run_stores (FetchState.new keys fs.extstored_policy attrs)
  let d := (r.1.bind FetchState.derive_computable, r.2 ++ [StoreTag.derivation])
  let w := (d.1.bind (fun s =>
      (s.write_to_cache (fs.indexedlog_cache.isSome && fs.cache_to_local_cache)
        (fs.memcache.isSome && fs.cache_to_memcache)
        fs.aux_cache.isSome fs.aux_local.isSome).map Prod.fst),
    d.2 ++ [StoreTag.writeback])
  (w.1.map FetchState.finish, w.2)

/-- The final fetch state, just before `finish`. -/
def FileStore.fetch_state_final (fs : FileStore) (keys : List Key)
    (attrs : FileAttributes) : Option FetchState :=
  ((fs.run_stores (FetchState.new keys fs.extstored_policy attrs)).1.bind
      FetchState.derive_computable).bind
    (fun s =>
      (s.write_to_cache (fs.indexedlog_cache.isSome && fs.cache_to_local_cache)
        (fs.memcache.isSome && fs.cache_to_memcache)
        fs.aux_cache.isSome fs.aux_local.isSome).map Prod.fst)

/-- `FileStore::fetch`. -/
def FileStore.fetch (fs : FileStore) (keys : List Key) (attrs : FileAttributes) :
    Option FileStoreFetch :=
  (fs.fetch_state_final keys attrs).map FetchState.finish

/-! ## The batch write path and prefetch facade -/

/-- Modelled external `lfs::lfs_from_hg_file_blob`: computes the pointer and
the LFS blob for an hg file blob. -/
def lfs_from_hg_file_blob (hgid : HgId) (b : Bytes) : LfsPointersEntry × Bytes :=
  ({ sha256 := sha256_hash b, size := b.length, hgid := hgid }, b)

/-- What `write_batch` hands to the local stores. -/
structure BatchWrites where
  lfs_blob_writes : List (Sha256 × Bytes)
  lfs_pointer_writes : List LfsPointersEntry
  indexedlog_writes : List Entry
deriving DecidableEq, Repr

def BatchWrites.empty : BatchWrites := ⟨[], [], []⟩

/-- Does the blob length strictly exceed the configured LFS threshold?
(`lfs_threshold_bytes.map_or(false, |threshold| hg_blob_len > threshold)`). -/
def exceeds_threshold (threshold : Option Nat) (b : Bytes) : Bool :=
  match threshold with
  | some t => decide (b.length > t)
  | Option.none => false

/-- Loop of `FileStore::write_batch`.  Processing stops at the first error
(`ensure!` for pointer-flagged entries; a missing local store for the
required route); writes made before the error remain.  The second component
is the error, if any. -/
def write_batch_go (threshold : Option Nat) (has_lfs_local has_indexedlog_local : Bool) :
    List (Key × Bytes × Metadata) → BatchWrites × Option Nat
  | [] => (BatchWrites.empty, Option.none)
  | (k, b, m) :: rest =>
    if m.is_lfs then (BatchWrites.empty, some 107)
    else if exceeds_threshold threshold b then
      if has_lfs_local then
        let pb := lfs_from_hg_file_blob k.hgid b
        let r := write_batch_go threshold has_lfs_local has_indexedlog_local rest
        ({ r.1 with
            lfs_blob_writes := (pb.1.sha256, pb.2) :: r.1.lfs_blob_writes
            lfs_pointer_writes := pb.1 :: r.1.lfs_pointer_writes }, r.2)
      else (BatchWrites.empty, some 108)
    else if has_indexedlog_local then
      let r := write_batch_go threshold has_lfs_local has_indexedlog_local rest
      ({ r.1 with indexedlog_writes := Entry.new k b m :: r.1.indexedlog_writes }, r.2)
    else (BatchWrites.empty, some 109)

/-- `FileStore::write_batch`. -/
def FileStore.write_batch (fs : FileStore) (entries : List (Key × Bytes × Metadata)) :
    BatchWrites × Option Nat :=
  write_batch_go fs.lfs_threshold_bytes fs.lfs_local.isSome fs.indexedlog_local.isSome entries

/-- `impl RemoteDataStore for FileStore`, `prefetch`: batch fetch for
`content`, returning the keys of the `incomplete` map as `StoreKey::HgId`. -/
def FileStore.prefetch (fs : FileStore) (keys : List StoreKey) : Option (List StoreKey) :=
  (fs.fetch (keys.filterMap StoreKey.maybe_into_key) FileAttributes.CONTENT).map
    (fun res => res.incomplete.map (fun q => StoreKey.hgId q.1))

/-! ## Basic lemmas about the attribute algebra and `StoreFile` -/

theorem attrs_bitor (x y : StoreFile) : (x.bitor y).attrs = x.attrs.bitor y.attrs := by
  rcases x with ⟨xc, xa⟩
  rcases y with ⟨yc, ya⟩
  cases xc <;> cases xa <;> cases yc <;> cases ya <;> rfl

theorem has_bitor_right (a b c : FileAttributes) (h : b.has c = true) :
    (a.bitor b).has c = true := by
  rcases a with ⟨a1, a2⟩
  rcases b with ⟨b1, b2⟩
  rcases c with ⟨c1, c2⟩
  revert h
  cases a1 <;> cases a2 <;> cases b1 <;> cases b2 <;> cases c1 <;> cases c2 <;> decide

theorem bitor_has (x y : StoreFile) (c : FileAttributes) (h : y.attrs.has c = true) :
    (x.bitor y).attrs.has c = true := by
  rw [attrs_bitor]
  exact has_bitor_right _ _ _ h

theorem bitor_aux_isSome (x y : StoreFile) (h : y.aux_data.isSome = true) :
    (x.bitor y).aux_data.isSome = true := by
  rcases y with ⟨yc, ya⟩
  cases ya
  · simp at h
  · rcases x with ⟨xc, xa⟩
    cases xa <;> rfl

theorem mask_has (v : StoreFile) (a : FileAttributes) (h : v.attrs.has a = true) :
    (v.mask a).attrs.has a = true := by
  rcases v with ⟨vc, va⟩
  rcases a with ⟨a1, a2⟩
  revert h
  cases vc <;> cases va <;> cases a1 <;> cases a2 <;>
    simp [StoreFile.mask, StoreFile.attrs, FileAttributes.has, FileAttributes.sub,
      FileAttributes.bitand, FileAttributes.not, FileAttributes.none, FileAttributes.NONE,
      beq_iff_eq]

theorem mask_idem (v : StoreFile) (a : FileAttributes) : (v.mask a).mask a = v.mask a := by
  rcases v with ⟨vc, va⟩
  rcases a with ⟨a1, a2⟩
  cases vc <;> cases va <;> cases a1 <;> cases a2 <;> rfl

theorem compute_aux_shape (v v2 : StoreFile) (h : v.compute_aux_data = Res.ok v2) :
    v2.content = v.content ∧ v2.aux_data.isSome = true := by
  rcases v with ⟨vc, va⟩
  cases vc with
  | none => simp [StoreFile.compute_aux_data] at h
  | some lf =>
    simp only [StoreFile.compute_aux_data] at h
    cases haux : lf.aux_data with
    | ok aux => rw [haux] at h; cases h; exact ⟨rfl, rfl⟩
    | err e => rw [haux] at h; cases h

theorem compute_aux_has (v v2 : StoreFile) (c : FileAttributes)
    (h : v.compute_aux_data = Res.ok v2) (hc : v.attrs.has c = true) :
    v2.attrs.has c = true := by
  obtain ⟨h1, h2⟩ := compute_aux_shape v v2 h
  rcases v2 with ⟨v2c, v2a⟩
  rcases v with ⟨vc, va⟩
  rcases c with ⟨c1, c2⟩
  simp only at h1
  subst h1
  revert hc h2
  cases v2c <;> cases va <;> cases v2a <;> cases c1 <;> cases c2 <;>
    simp [StoreFile.attrs, FileAttributes.has, FileAttributes.sub, FileAttributes.bitand,
      FileAttributes.not, FileAttributes.none, FileAttributes.NONE, beq_iff_eq]

theorem compute_aux_aux_isSome (v v2 : StoreFile) (h : v.compute_aux_data = Res.ok v2)
    (_hv : v.aux_data.isSome = true) : v2.aux_data.isSome = true :=
  (compute_aux_shape v v2 h).2

/-! ## Association-list lemmas -/

theorem alookup_mem {α : Type} (l : List (Key × α)) (k : Key) (v : α)
    (h : alookup l k = some v) : (k, v) ∈ l := by
  unfold alookup at h
  cases hf : l.find? (fun p => decide (p.1 = k)) with
  | none => rw [hf] at h; cases h
  | some p =>
    rw [hf] at h
    have hp := List.find?_some hf
    have hm := List.mem_of_find?_eq_some hf
    simp only [decide_eq_true_eq] at hp
    simp only [Option.map_some'] at h
    cases h
    rcases p with ⟨p1, p2⟩
    simp only at hp
    subst hp
    exact hm

theorem alookup_eq_none {α : Type} (l : List (Key × α)) (k : Key) :
    alookup l k = none ↔ ∀ p ∈ l, p.1 ≠ k := by
  unfold alookup
  rw [Option.map_eq_none', List.find?_eq_none]
  simp only [decide_eq_true_eq]

theorem alookup_isSome {α : Type} (l : List (Key × α)) (k : Key) :
    (alookup l k).isSome = true ↔ ∃ p ∈ l, p.1 = k := by
  constructor
  · intro h
    cases hl : alookup l k with
    | none => rw [hl] at h; cases h
    | some v => exact ⟨(k, v), alookup_mem l k v hl, rfl⟩
  · intro ⟨p, hp, he⟩
    cases hl : alookup l k with
    | none =>
      exact absurd he ((alookup_eq_none l k).mp hl p hp)
    | some v => rfl

theorem alookup_of_mem_nodup {α : Type} (l : List (Key × α)) (k : Key) (v : α)
    (hnd : (l.map Prod.fst).Nodup) (h : (k, v) ∈ l) : alookup l k = some v := by
  induction l with
  | nil => cases h
  | cons p rest ih =>
    simp only [List.map_cons, List.nodup_cons] at hnd
    rcases List.mem_cons.mp h with h1 | h1
    · subst h1
      unfold alookup
      simp [List.find?]
    · have hne : p.1 ≠ k := by
        intro he
        exact hnd.1 (he ▸ (List.mem_map.mpr ⟨(k, v), h1, rfl⟩))
      unfold alookup
      simp only [List.find?]
      rw [decide_eq_false hne]
      exact ih hnd.2 h1

theorem mem_ainsert {α : Type} (l : List (Key × α)) (k : Key) (v : α) (q : Key × α)
    (h : q ∈ ainsert l k v) : (q ∈ l ∧ q.1 ≠ k) ∨ q.1 = k := by
  unfold ainsert at h
  by_cases hf : (l.find? (fun p => decide (p.1 = k))).isSome = true
  · rw [if_pos hf] at h
    rcases List.mem_map.mp h with ⟨p, hp, he⟩
    by_cases hpk : p.1 = k
    · rw [if_pos hpk] at he
      right
      rw [← he]
      exact hpk
    · rw [if_neg hpk] at he
      subst he
      exact Or.inl ⟨hp, hpk⟩
  · rw [if_neg hf] at h
    rcases List.mem_append.mp h with h1 | h1
    · by_cases hqk : q.1 = k
      · exact Or.inr hqk
      · exact Or.inl ⟨h1, hqk⟩
    · right
      simp only [List.mem_singleton] at h1
      subst h1
      rfl

theorem mem_insert_key (l : List Key) (k j : Key) :
    j ∈ insert_key l k ↔ j ∈ l ∨ j = k := by
  unfold insert_key
  by_cases h : k ∈ l
  · rw [if_pos h]
    constructor
    · exact Or.inl
    · rintro (h1 | rfl)
      · exact h1
      · exact h
  · rw [if_neg h]
    simp [List.mem_append]

theorem map_fst_update {α : Type} (l : List (Key × α)) (k : Key) (v : α) :
    (l.map (fun p => if p.1 = k then (p.1, v) else p)).map Prod.fst = l.map Prod.fst := by
  induction l with
  | nil => rfl
  | cons p rest ih =>
    simp only [List.map_cons, ih]
    by_cases hp : p.1 = k
    · rw [if_pos hp]
    · rw [if_neg hp]

theorem mem_keys_update {α : Type} (l : List (Key × α)) (k : Key) (v : α) (j : Key) :
    (∃ p ∈ l.map (fun p => if p.1 = k then (p.1, v) else p), p.1 = j) ↔ ∃ p ∈ l, p.1 = j := by
  constructor
  · rintro ⟨p, hp, he⟩
    rcases List.mem_map.mp hp with ⟨q, hq, hqe⟩
    refine ⟨q, hq, ?_⟩
    by_cases hqk : q.1 = k
    · rw [if_pos hqk] at hqe
      rw [← hqe] at he
      exact he ▸ hqk ▸ rfl
    · rw [if_neg hqk] at hqe
      rw [hqe]
      exact he
  · rintro ⟨p, hp, he⟩
    by_cases hpk : p.1 = k
    · exact ⟨(p.1, v), List.mem_map.mpr ⟨p, hp, by rw [if_pos hpk]⟩, he⟩
    · exact ⟨p, List.mem_map.mpr ⟨p, hp, by rw [if_neg hpk]⟩, he⟩

/-! ## The fetch-state well-formedness invariant

`WF0` collects the facts about `pending` / `found` / errors / `key_origin`
maintained by every fetch step; `WFQ` the facts about the three promotion
queues.  `req` is the requested key set, `ra` the requested attributes. -/

structure WF0 (req : List Key) (ra : FileAttributes) (s : FetchState) : Prop where
  req_attrs : s.request_attrs = ra
  pending_sub : ∀ k ∈ s.pending, k ∈ req
  found_sub : ∀ p ∈ s.found, p.1 ∈ req
  err_sub : ∀ p ∈ s.errors.fetch_errors, p.1 ∈ req
  cover : ∀ k ∈ req, k ∈ s.pending ∨ ∃ p ∈ s.found, p.1 = k
  nodup : (s.found.map Prod.fst).Nodup
  complete_sound : ∀ p ∈ s.found, p.1 ∉ s.pending → p.2.attrs.has ra = true
  origin_sub : ∀ p ∈ s.found, (s.key_origin p.1).isSome = true

structure WFQ (s : FetchState) : Prop where
  edenapi_sub : ∀ k ∈ s.found_in_edenapi, ∃ p ∈ s.found, p.1 = k
  memcache_sub : ∀ k ∈ s.found_in_memcache, ∃ p ∈ s.found, p.1 = k
  computed_aux : ∀ q ∈ s.computed_aux_data,
    ∃ p ∈ s.found, p.1 = q.1 ∧ p.2.aux_data.isSome = true

def WF (req : List Key) (ra : FileAttributes) (s : FetchState) : Prop :=
  WF0 req ra s ∧ WFQ s

theorem WF0_congr {req : List Key} {ra : FileAttributes} {s : FetchState} (h : WF0 req ra s)
    (s' : FetchState)
    (h1 : s'.pending = s.pending) (h2 : s'.request_attrs = s.request_attrs)
    (h3 : s'.found = s.found) (h4 : s'.errors.fetch_errors = s.errors.fetch_errors)
    (h5 : s'.key_origin = s.key_origin) : WF0 req ra s' := by
  constructor
  · rw [h2]; exact h.req_attrs
  · intro k hk; exact h.pending_sub k (h1 ▸ hk)
  · intro p hp; exact h.found_sub p (h3 ▸ hp)
  · intro p hp; exact h.err_sub p (h4 ▸ hp)
  · intro k hk; rw [h1, h3]; exact h.cover k hk
  · rw [h3]; exact h.nodup
  · intro p hp hnp; exact h.complete_sound p (h3 ▸ hp) (h1 ▸ hnp)
  · intro p hp; rw [h5]; exact h.origin_sub p (h3 ▸ hp)

theorem WFQ_congr {s : FetchState} (h : WFQ s) (s' : FetchState)
    (h1 : s'.found = s.found) (h2 : s'.found_in_edenapi = s.found_in_edenapi)
    (h3 : s'.found_in_memcache = s.found_in_memcache)
    (h4 : s'.computed_aux_data = s.computed_aux_data) : WFQ s' := by
  constructor
  · intro k hk; rw [h1]; exact h.edenapi_sub k (h2 ▸ hk)
  · intro k hk; rw [h1]; exact h.memcache_sub k (h3 ▸ hk)
  · intro q hq; rw [h1]; exact h.computed_aux q (h4 ▸ hq)

/-! Preservation of the invariant by the primitive mutators. -/

theorem wf0_keyed_error {req ra s} (k : Key) (er : Nat) (h : WF0 req ra s) (hk : k ∈ req) :
    WF0 req ra (s.keyed_error k er) := by
  have herr : ∀ p ∈ (s.keyed_error k er).errors.fetch_errors, p.1 ∈ req := by
    intro p hp
    simp only [FetchState.keyed_error, FetchErrors.keyed_error] at hp
    by_cases hf : ((s.errors.fetch_errors.find? (fun p => decide (p.1 = k))).isSome = true)
    · rw [if_pos hf] at hp
      rcases List.mem_map.mp hp with ⟨q, hq, he⟩
      have hfst : p.1 = q.1 := by
        by_cases hqk : q.1 = k
        · rw [if_pos hqk] at he; rw [← he]
        · rw [if_neg hqk] at he; rw [← he]
      rw [hfst]
      exact h.err_sub q hq
    · rw [if_neg hf] at hp
      rcases List.mem_append.mp hp with h1 | h1
      · exact h.err_sub p h1
      · simp only [List.mem_singleton] at h1
        rw [h1]
        exact hk
  exact ⟨h.req_attrs, h.pending_sub, h.found_sub, herr, h.cover, h.nodup,
    h.complete_sound, h.origin_sub⟩

theorem wfq_keyed_error {s} (k : Key) (er : Nat) (h : WFQ s) : WFQ (s.keyed_error k er) :=
  WFQ_congr h _ rfl rfl rfl rfl

theorem wf0_other_error {req ra s} (er : Nat) (h : WF0 req ra s) :
    WF0 req ra (s.other_error er) :=
  WF0_congr h _ rfl rfl rfl rfl rfl

theorem wfq_other_error {s} (er : Nat) (h : WFQ s) : WFQ (s.other_error er) :=
  WFQ_congr h _ rfl rfl rfl rfl

theorem wf0_found_pointer {req ra s} (k : Key) (ptr : LfsPointersEntry)
    (typ : LocalStoreType) (h : WF0 req ra s) : WF0 req ra (s.found_pointer k ptr typ) :=
  WF0_congr h _ rfl rfl rfl rfl rfl

theorem wfq_found_pointer {s} (k : Key) (ptr : LfsPointersEntry) (typ : LocalStoreType)
    (h : WFQ s) : WFQ (s.found_pointer k ptr typ) :=
  WFQ_congr h _ rfl rfl rfl rfl

theorem mark_complete_found (s : FetchState) (k : Key) : (s.mark_complete k).found = s.found := by
  simp only [FetchState.mark_complete]
  split <;> rfl

theorem mark_complete_pending (s : FetchState) (k : Key) :
    (s.mark_complete k).pending = s.pending.filter (fun j => decide (j ≠ k)) := by
  simp only [FetchState.mark_complete]
  split <;> rfl

theorem mark_complete_stable (s : FetchState) (k : Key) :
    (s.mark_complete k).request_attrs = s.request_attrs ∧
    (s.mark_complete k).errors = s.errors ∧
    (s.mark_complete k).key_origin = s.key_origin ∧
    (s.mark_complete k).found_in_edenapi = s.found_in_edenapi ∧
    (s.mark_complete k).found_in_memcache = s.found_in_memcache ∧
    (s.mark_complete k).computed_aux_data = s.computed_aux_data := by
  simp only [FetchState.mark_complete]
  split <;> exact ⟨rfl, rfl, rfl, rfl, rfl, rfl⟩

theorem wf0_mark_complete {req ra s} (k : Key) (h : WF0 req ra s)
    (hex : ∃ p ∈ s.found, p.1 = k)
    (hall : ∀ p ∈ s.found, p.1 = k → p.2.attrs.has ra = true) :
    WF0 req ra (s.mark_complete k) := by
  obtain ⟨hra, herr, hko, _, _, _⟩ := mark_complete_stable s k
  constructor
  · rw [hra]; exact h.req_attrs
  · intro j hj
    rw [mark_complete_pending] at hj
    exact h.pending_sub j (List.mem_filter.mp hj).1
  · intro p hp; rw [mark_complete_found] at hp; exact h.found_sub p hp
  · intro p hp; rw [herr] at hp; exact h.err_sub p hp
  · intro j hj
    rw [mark_complete_pending, mark_complete_found]
    rcases h.cover j hj with h1 | h1
    · by_cases hjk : j = k
      · subst hjk; exact Or.inr hex
      · exact Or.inl (List.mem_filter.mpr ⟨h1, by simpa using hjk⟩)
    · exact Or.inr h1
  · rw [mark_complete_found]; exact h.nodup
  · intro p hp hnp
    rw [mark_complete_found] at hp
    rw [mark_complete_pending] at hnp
    by_cases hpk : p.1 = k
    · exact hall p hp hpk
    · refine h.complete_sound p hp ?_
      intro hmem
      exact hnp (List.mem_filter.mpr ⟨hmem, by simpa using hpk⟩)
  · intro p hp
    rw [mark_complete_found] at hp
    rw [hko]
    exact h.origin_sub p hp

theorem wfq_mark_complete {s} (k : Key) (h : WFQ s) : WFQ (s.mark_complete k) := by
  obtain ⟨_, _, _, hed, hmc, hca⟩ := mark_complete_stable s k
  exact WFQ_congr h _ (mark_complete_found s k) hed hmc hca

theorem wf0_found_attributes {req ra s} (k : Key) (sf : StoreFile) (typ : Option LocalStoreType)
    (h : WF0 req ra s) (hk : k ∈ req) : WF0 req ra (s.found_attributes k sf typ) := by
  have horig : ∀ p : Key × StoreFile, p ∈ s.found →
      ((fun j => if j = k then some (typ.getD LocalStoreType.cache) else s.key_origin j)
        p.1).isSome = true := by
    intro p hp
    by_cases hpk : p.1 = k
    · simp [hpk]
    · simpa [hpk] using h.origin_sub p hp
  simp only [FetchState.found_attributes]
  split
  next r halo =>
    have hmem : (k, r) ∈ s.found := alookup_mem _ _ _ halo
    have h1 : WF0 req ra
        { s with
          key_origin := fun j =>
            if j = k then some (typ.getD LocalStoreType.cache) else s.key_origin j
          found := s.found.map (fun p => if p.1 = k then (p.1, sf.bitor r) else p) } := by
      refine ⟨h.req_attrs, h.pending_sub, ?_, h.err_sub, ?_, ?_, ?_, ?_⟩
      · intro p hp
        rcases List.mem_map.mp hp with ⟨q, hq, he⟩
        have hfst : p.1 = q.1 := by
          by_cases hqk : q.1 = k
          · rw [if_pos hqk] at he; rw [← he]
          · rw [if_neg hqk] at he; rw [← he]
        rw [hfst]
        exact h.found_sub q hq
      · intro j hj
        rcases h.cover j hj with h1 | h1
        · exact Or.inl h1
        · exact Or.inr ((mem_keys_update s.found k (sf.bitor r) j).mpr h1)
      · rw [map_fst_update]
        exact h.nodup
      · intro p hp hnp
        rcases List.mem_map.mp hp with ⟨q, hq, he⟩
        by_cases hqk : q.1 = k
        · rw [if_pos hqk] at he
          have h2 := alookup_of_mem_nodup s.found q.1 q.2 h.nodup hq
          rw [hqk, halo] at h2
          have hq2 : r = q.2 := Option.some_inj.mp h2
          have hqs : q.2.attrs.has ra = true := by
            refine h.complete_sound q hq ?_
            rw [hqk]
            have hpk : p.1 = k := by rw [← he]; exact hqk
            exact hpk ▸ hnp
          rw [← he]
          show (sf.bitor r).attrs.has ra = true
          rw [hq2]
          exact bitor_has sf q.2 ra hqs
        · rw [if_neg hqk] at he
          rw [← he]
          refine h.complete_sound q hq ?_
          exact he.symm ▸ hnp
      · intro p hp
        rcases List.mem_map.mp hp with ⟨q, hq, he⟩
        have hfst : p.1 = q.1 := by
          by_cases hqk : q.1 = k
          · rw [if_pos hqk] at he; rw [← he]
          · rw [if_neg hqk] at he; rw [← he]
        rw [hfst]
        exact horig q hq
    split
    next hhas =>
      refine wf0_mark_complete k h1 ?_ ?_
      · refine ⟨(k, sf.bitor r), List.mem_map.mpr ⟨(k, r), hmem, by simp⟩, rfl⟩
      · intro p hp hpk
        rcases List.mem_map.mp hp with ⟨q, hq, he⟩
        by_cases hqk : q.1 = k
        · rw [if_pos hqk] at he
          rw [← he]
          simpa [h.req_attrs] using hhas
        · rw [if_neg hqk] at he
          exact absurd (he ▸ hpk) hqk
    next => exact h1
  next halo =>
    have hnone : ∀ p ∈ s.found, p.1 ≠ k := (alookup_eq_none _ _).mp halo
    have h1 : WF0 req ra
        { s with
          key_origin := fun j =>
            if j = k then some (typ.getD LocalStoreType.cache) else s.key_origin j
          found := s.found ++ [(k, sf)] } := by
      refine ⟨h.req_attrs, h.pending_sub, ?_, h.err_sub, ?_, ?_, ?_, ?_⟩
      · intro p hp
        rcases List.mem_append.mp hp with h1 | h1
        · exact h.found_sub p h1
        · simp only [List.mem_singleton] at h1
          rw [h1]
          exact hk
      · intro j hj
        rcases h.cover j hj with h1 | h1
        · exact Or.inl h1
        · rcases h1 with ⟨p, hp, he⟩
          exact Or.inr ⟨p, List.mem_append_left _ hp, he⟩
      · rw [List.map_append]
        rw [List.nodup_append]
        refine ⟨h.nodup, List.nodup_singleton _, ?_⟩
        intro j hj hj2
        simp only [List.map_cons, List.map_nil, List.mem_singleton] at hj2
        rcases List.mem_map.mp hj with ⟨q, hq, he⟩
        exact hnone q hq (he ▸ hj2)
      · intro p hp hnp
        rcases List.mem_append.mp hp with h1 | h1
        · exact h.complete_sound p h1 hnp
        · simp only [List.mem_singleton] at h1
          subst h1
          rcases h.cover k hk with h2 | h2
          · exact absurd h2 hnp
          · rcases h2 with ⟨q, hq, he⟩
            exact absurd he (hnone q hq)
      · intro p hp
        rcases List.mem_append.mp hp with h1 | h1
        · exact horig p h1
        · simp only [List.mem_singleton] at h1
          subst h1
          simp
    split
    next hhas =>
      refine wf0_mark_complete k h1 ?_ ?_
      · exact ⟨(k, sf), List.mem_append_right _ (List.mem_singleton.mpr rfl), rfl⟩
      · intro p hp hpk
        rcases List.mem_append.mp hp with h1 | h1
        · exact absurd hpk (hnone p h1)
        · simp only [List.mem_singleton] at h1
          subst h1
          simpa [h.req_attrs] using hhas
    next => exact h1

/-- `found_attributes` leaves every existing key of `found` in place and adds
an entry for the argument key; values can only gain attributes, so keyed
`aux_data` presence is preserved (needs key uniqueness to identify the merged
value). -/
theorem found_attributes_keys (s : FetchState) (k : Key) (sf : StoreFile)
    (typ : Option LocalStoreType) (hnd : (s.found.map Prod.fst).Nodup) :
    (∃ p ∈ (s.found_attributes k sf typ).found, p.1 = k) ∧
    (∀ j, (∃ p ∈ s.found, p.1 = j) →
      ∃ p ∈ (s.found_attributes k sf typ).found, p.1 = j) ∧
    (∀ p ∈ s.found, p.2.aux_data.isSome = true →
      ∃ p2 ∈ (s.found_attributes k sf typ).found, p2.1 = p.1 ∧ p2.2.aux_data.isSome = true) := by
  simp only [FetchState.found_attributes]
  split
  next r halo =>
    have hmem : (k, r) ∈ s.found := alookup_mem _ _ _ halo
    have hfound : ∀ s2 : FetchState,
        s2.found = s.found.map (fun p => if p.1 = k then (p.1, sf.bitor r) else p) →
        (∃ p ∈ s2.found, p.1 = k) ∧
        (∀ j, (∃ p ∈ s.found, p.1 = j) → ∃ p ∈ s2.found, p.1 = j) ∧
        (∀ p ∈ s.found, p.2.aux_data.isSome = true →
          ∃ p2 ∈ s2.found, p2.1 = p.1 ∧ p2.2.aux_data.isSome = true) := by
      intro s2 hs2
      rw [hs2]
      refine ⟨⟨(k, sf.bitor r), List.mem_map.mpr ⟨(k, r), hmem, by simp⟩, rfl⟩, ?_, ?_⟩
      · intro j hj
        exact (mem_keys_update s.found k (sf.bitor r) j).mpr hj
      · intro p hp haux
        by_cases hpk : p.1 = k
        · refine ⟨(p.1, sf.bitor r), List.mem_map.mpr ⟨p, hp, by rw [if_pos hpk]⟩, rfl, ?_⟩
          have h2 := alookup_of_mem_nodup s.found p.1 p.2 hnd hp
          rw [hpk, halo] at h2
          have hq2 : r = p.2 := Option.some_inj.mp h2
          exact bitor_aux_isSome sf r (by rw [hq2]; exact haux)
        · exact ⟨p, List.mem_map.mpr ⟨p, hp, by rw [if_neg hpk]⟩, rfl, haux⟩
    split
    next hhas =>
      refine hfound _ ?_
      rw [mark_complete_found]
    next => exact hfound _ rfl
  next halo =>
    have hfound : ∀ s2 : FetchState, s2.found = s.found ++ [(k, sf)] →
        (∃ p ∈ s2.found, p.1 = k) ∧
        (∀ j, (∃ p ∈ s.found, p.1 = j) → ∃ p ∈ s2.found, p.1 = j) ∧
        (∀ p ∈ s.found, p.2.aux_data.isSome = true →
          ∃ p2 ∈ s2.found, p2.1 = p.1 ∧ p2.2.aux_data.isSome = true) := by
      intro s2 hs2
      rw [hs2]
      refine ⟨⟨(k, sf), List.mem_append_right _ (List.mem_singleton.mpr rfl), rfl⟩, ?_, ?_⟩
      · rintro j ⟨p, hp, he⟩
        exact ⟨p, List.mem_append_left _ hp, he⟩
      · intro p hp haux
        exact ⟨p, List.mem_append_left _ hp, rfl, haux⟩
    split
    next hhas =>
      refine hfound _ ?_
      rw [mark_complete_found]
    next => exact hfound _ rfl

/-- `found_attributes` leaves the promotion queues untouched. -/
theorem found_attributes_queues (s : FetchState) (k : Key) (sf : StoreFile)
    (typ : Option LocalStoreType) :
    (s.found_attributes k sf typ).found_in_edenapi = s.found_in_edenapi ∧
    (s.found_attributes k sf typ).found_in_memcache = s.found_in_memcache ∧
    (s.found_attributes k sf typ).computed_aux_data = s.computed_aux_data := by
  simp only [FetchState.found_attributes]
  split
  next r halo =>
    split
    next =>
      obtain ⟨_, _, _, hed, hmc, hca⟩ := mark_complete_stable _ k
      exact ⟨hed, hmc, hca⟩
    next => exact ⟨rfl, rfl, rfl⟩
  next halo =>
    split
    next =>
      obtain ⟨_, _, _, hed, hmc, hca⟩ := mark_complete_stable _ k
      exact ⟨hed, hmc, hca⟩
    next => exact ⟨rfl, rfl, rfl⟩

theorem wfq_found_attributes {s} (k : Key) (sf : StoreFile) (typ : Option LocalStoreType)
    (hq : WFQ s) (hnd : (s.found.map Prod.fst).Nodup) : WFQ (s.found_attributes k sf typ) := by
  obtain ⟨hself, hmono, haux⟩ := found_attributes_keys s k sf typ hnd
  obtain ⟨hed, hmc, hca⟩ := found_attributes_queues s k sf typ
  constructor
  · intro j hj
    rw [hed] at hj
    exact hmono j (hq.edenapi_sub j hj)
  · intro j hj
    rw [hmc] at hj
    exact hmono j (hq.memcache_sub j hj)
  · intro q hqm
    rw [hca] at hqm
    rcases hq.computed_aux q hqm with ⟨p, hp, he, hauxp⟩
    rcases haux p hp hauxp with ⟨p2, hp2, he2, haux2⟩
    exact ⟨p2, hp2, he2.trans he, haux2⟩

/-! Combined invariant preservation for the primitives and the per-source
ingest handlers. -/

theorem wf_keyed_error {req ra s} (k : Key) (er : Nat) (h : WF req ra s) (hk : k ∈ req) :
    WF req ra (s.keyed_error k er) :=
  ⟨wf0_keyed_error k er h.1 hk, wfq_keyed_error k er h.2⟩

theorem wf_other_error {req ra s} (er : Nat) (h : WF req ra s) : WF req ra (s.other_error er) :=
  ⟨wf0_other_error er h.1, wfq_other_error er h.2⟩

theorem wf_found_pointer {req ra s} (k : Key) (ptr : LfsPointersEntry) (typ : LocalStoreType)
    (h : WF req ra s) : WF req ra (s.found_pointer k ptr typ) :=
  ⟨wf0_found_pointer k ptr typ h.1, wfq_found_pointer k ptr typ h.2⟩

theorem wf_found_attributes {req ra s} (k : Key) (sf : StoreFile) (typ : Option LocalStoreType)
    (h : WF req ra s) (hk : k ∈ req) : WF req ra (s.found_attributes k sf typ) :=
  ⟨wf0_found_attributes k sf typ h.1 hk, wfq_found_attributes k sf typ h.2 h.1.nodup⟩

theorem wf_found_indexedlog {req ra s} (k : Key) (entry : Entry) (typ : LocalStoreType)
    (h : WF req ra s) (hk : k ∈ req) : WF req ra (s.found_indexedlog k entry typ) := by
  unfold FetchState.found_indexedlog
  by_cases h1 : entry.metadata.is_lfs = true
  · rw [if_pos h1]
    by_cases h2 : s.extstored_policy = ExtStoredPolicy.use_
    · rw [if_pos h2]
      cases entry.to_lfs_ptr with
      | ok ptr => exact wf_found_pointer k ptr typ h
      | err e => exact wf_keyed_error k e h hk
    · rw [if_neg h2]
      exact h
  · rw [if_neg h1]
    exact wf_found_attributes k _ (some typ) h hk

theorem wf_found_lfs {req ra s} (k : Key) (entry : LfsStoreEntry) (typ : LocalStoreType)
    (h : WF req ra s) (hk : k ∈ req) : WF req ra (s.found_lfs k entry typ) := by
  unfold FetchState.found_lfs
  cases entry with
  | pointerAndBlob ptr blob => exact wf_found_attributes k _ (some typ) h hk
  | pointerOnly ptr => exact wf_found_pointer k ptr typ h

theorem wf_found_memcache {req ra s} (d : McData) (h : WF req ra s) (hk : d.key ∈ req) :
    WF req ra (s.found_memcache d) := by
  unfold FetchState.found_memcache
  by_cases h1 : d.metadata.is_lfs = true
  · rw [if_pos h1]
    cases d.to_lfs_ptr with
    | ok ptr => exact wf_found_pointer _ ptr _ h
    | err e => exact wf_keyed_error _ e h hk
  · rw [if_neg h1]
    have h0 : WF0 req ra { s with found_in_memcache := insert_key s.found_in_memcache d.key } :=
      WF0_congr h.1 _ rfl rfl rfl rfl rfl
    set s1 : FetchState := { s with found_in_memcache := insert_key s.found_in_memcache d.key }
    obtain ⟨hself, hmono, haux⟩ :=
      found_attributes_keys s1 d.key (StoreFile.from_lazy (LazyFile.memcache d)) Option.none
        h0.nodup
    obtain ⟨hed, hmc, hca⟩ :=
      found_attributes_queues s1 d.key (StoreFile.from_lazy (LazyFile.memcache d)) Option.none
    refine ⟨wf0_found_attributes d.key _ Option.none h0 hk, ?_, ?_, ?_⟩
    · intro j hj
      rw [hed] at hj
      exact hmono j (h.2.edenapi_sub j hj)
    · intro j hj
      rw [hmc] at hj
      rcases (mem_insert_key s.found_in_memcache d.key j).mp hj with hjo | hje
      · exact hmono j (h.2.memcache_sub j hjo)
      · exact hje ▸ hself
    · intro q hq
      rw [hca] at hq
      rcases h.2.computed_aux q hq with ⟨p, hp, he, hauxp⟩
      rcases haux p hp hauxp with ⟨p2, hp2, he2, haux2⟩
      exact ⟨p2, hp2, he2.trans he, haux2⟩

theorem wf_found_edenapi {req ra s} (d : FileEntry) (h : WF req ra s) (hk : d.key ∈ req) :
    WF req ra (s.found_edenapi d) := by
  unfold FetchState.found_edenapi
  by_cases h1 : d.metadata.is_lfs = true
  · rw [if_pos h1]
    cases d.to_lfs_ptr with
    | ok ptr => exact wf_found_pointer _ ptr _ h
    | err e => exact wf_keyed_error _ e h hk
  · rw [if_neg h1]
    have h0 : WF0 req ra { s with found_in_edenapi := insert_key s.found_in_edenapi d.key } :=
      WF0_congr h.1 _ rfl rfl rfl rfl rfl
    set s1 : FetchState := { s with found_in_edenapi := insert_key s.found_in_edenapi d.key }
    obtain ⟨hself, hmono, haux⟩ :=
      found_attributes_keys s1 d.key (StoreFile.from_lazy (LazyFile.edenApi d)) Option.none
        h0.nodup
    obtain ⟨hed, hmc, hca⟩ :=
      found_attributes_queues s1 d.key (StoreFile.from_lazy (LazyFile.edenApi d)) Option.none
    refine ⟨wf0_found_attributes d.key _ Option.none h0 hk, ?_, ?_, ?_⟩
    · intro j hj
      rw [hed] at hj
      rcases (mem_insert_key s.found_in_edenapi d.key j).mp hj with hjo | hje
      · exact hmono j (h.2.edenapi_sub j hjo)
      · exact hje ▸ hself
    · intro j hj
      rw [hmc] at hj
      exact hmono j (h.2.memcache_sub j hj)
    · intro q hq
      rw [hca] at hq
      rcases h.2.computed_aux q hq with ⟨p, hp, he, hauxp⟩
      rcases haux p hp hauxp with ⟨p2, hp2, he2, haux2⟩
      exact ⟨p2, hp2, he2.trans he, haux2⟩

theorem wf_found_contentstore {req ra s} (k : Key) (blob : Bytes) (meta : Metadata)
    (h : WF req ra s) (hk : k ∈ req) : WF req ra (s.found_contentstore k blob meta) := by
  unfold FetchState.found_contentstore
  by_cases h1 : meta.is_lfs = true
  · rw [if_pos h1]
    exact h
  · rw [if_neg h1]
    exact wf_found_attributes k _ Option.none h hk

/-! Membership facts about the pending enumerators. -/

theorem mem_pending_all {s : FetchState} {a : FileAttributes} {k : Key}
    (h : k ∈ s.pending_all a) : k ∈ s.pending := by
  unfold FetchState.pending_all at h
  split at h
  · cases h
  · exact (List.mem_filter.mp h).1

theorem mem_pending_nonlfs {s : FetchState} {a : FileAttributes} {k : Key}
    (h : k ∈ s.pending_nonlfs a) : k ∈ s.pending := by
  unfold FetchState.pending_nonlfs at h
  split at h
  · cases h
  · exact (List.mem_filter.mp (List.mem_filter.mp h).1).1

theorem storekey_maybe_into_key (s : FetchState) (k : Key) :
    (s.storekey k).maybe_into_key = some k := by
  unfold FetchState.storekey
  split <;> rfl

theorem mem_pending_storekey {s : FetchState} {a : FileAttributes} {sk : StoreKey}
    (h : sk ∈ s.pending_storekey a) {k : Key} (hk : sk.maybe_into_key = some k) :
    k ∈ s.pending := by
  unfold FetchState.pending_storekey at h
  split at h
  · cases h
  · rcases List.mem_map.mp h with ⟨k0, hk0, he⟩
    have hmk : sk.maybe_into_key = some k0 := by
      rw [← he]
      exact storekey_maybe_into_key s k0
    rw [hmk] at hk
    cases hk
    exact (List.mem_filter.mp hk0).1

/-! Invariant preservation by the whole store-consultation phases. -/

theorem wf_fetch_indexedlog_go {req ra} (store : IndexedLogOracle) (typ : LocalStoreType) :
    ∀ (ks : List Key) (s : FetchState), WF req ra s → (∀ k ∈ ks, k ∈ req) →
      WF req ra (FetchState.fetch_indexedlog_go store typ ks s)
  | [], s, h, _ => h
  | k :: rest, s, h, hks => by
    have hk : k ∈ req := hks k (List.mem_cons_self _ _)
    have hrest : ∀ j ∈ rest, j ∈ req := fun j hj => hks j (List.mem_cons_of_mem _ hj)
    show WF req ra (match store k with
      | Res.ok (some entry) =>
        FetchState.fetch_indexedlog_go store typ rest (s.found_indexedlog k entry typ)
      | Res.ok Option.none => FetchState.fetch_indexedlog_go store typ rest s
      | Res.err e => FetchState.fetch_indexedlog_go store typ rest (s.keyed_error k e))
    split
    next entry _ =>
      exact wf_fetch_indexedlog_go store typ rest _ (wf_found_indexedlog k entry typ h hk) hrest
    next _ => exact wf_fetch_indexedlog_go store typ rest s h hrest
    next e _ => exact wf_fetch_indexedlog_go store typ rest _ (wf_keyed_error k e h hk) hrest

theorem wf_fetch_indexedlog {req ra s} (store : IndexedLogOracle) (typ : LocalStoreType)
    (h : WF req ra s) : WF req ra (s.fetch_indexedlog store typ) := by
  show WF req ra (if (s.pending_nonlfs FileAttributes.CONTENT).isEmpty then s
    else FetchState.fetch_indexedlog_go store typ (s.pending_nonlfs FileAttributes.CONTENT) s)
  split
  · exact h
  · exact wf_fetch_indexedlog_go store typ _ s h
      (fun k hk => h.1.pending_sub k (mem_pending_nonlfs hk))

theorem wf_fetch_aux_indexedlog_go {req ra} (store : IndexedLogOracle) :
    ∀ (ks : List Key) (s : FetchState), WF req ra s → (∀ k ∈ ks, k ∈ req) →
      WF req ra (FetchState.fetch_aux_indexedlog_go store ks s).1
  | [], s, h, _ => h
  | k :: rest, s, h, hks => by
    have hk : k ∈ req := hks k (List.mem_cons_self _ _)
    have hrest : ∀ j ∈ rest, j ∈ req := fun j hj => hks j (List.mem_cons_of_mem _ hj)
    show WF req ra (match store k with
      | Res.err e => FetchState.fetch_aux_indexedlog_go store rest (s.keyed_error k e)
      | Res.ok Option.none => FetchState.fetch_aux_indexedlog_go store rest s
      | Res.ok (some entry) =>
        match found_aux_result entry with
        | Res.err e => (s, some e)
        | Res.ok aux =>
          FetchState.fetch_aux_indexedlog_go store rest
            (s.found_attributes k (StoreFile.from_aux aux) Option.none)).1
    split
    next e _ => exact wf_fetch_aux_indexedlog_go store rest _ (wf_keyed_error k e h hk) hrest
    next _ => exact wf_fetch_aux_indexedlog_go store rest s h hrest
    next entry _ =>
      show WF req ra (match found_aux_result entry with
        | Res.err e => (s, some e)
        | Res.ok aux =>
          FetchState.fetch_aux_indexedlog_go store rest
            (s.found_attributes k (StoreFile.from_aux aux) Option.none)).1
      split
      next e _ => exact h
      next aux _ =>
        exact wf_fetch_aux_indexedlog_go store rest _
          (wf_found_attributes k (StoreFile.from_aux aux) Option.none h hk) hrest

theorem wf_fetch_aux_indexedlog {req ra s} (store : IndexedLogOracle) (h : WF req ra s) :
    WF req ra (s.fetch_aux_indexedlog store) := by
  show WF req ra (if (s.pending_all FileAttributes.AUX).isEmpty then s
    else match FetchState.fetch_aux_indexedlog_go store (s.pending_all FileAttributes.AUX) s with
      | (s1, Option.none) => s1
      | (s1, some e) => s1.other_error e)
  split
  · exact h
  · have hgo := wf_fetch_aux_indexedlog_go store (s.pending_all FileAttributes.AUX) s h
      (fun k hk => h.1.pending_sub k (mem_pending_all hk))
    split
    next s1 heq =>
      have hs1 : s1 = (FetchState.fetch_aux_indexedlog_go store
          (s.pending_all FileAttributes.AUX) s).1 := by rw [heq]
      rw [hs1]
      exact hgo
    next s1 e heq =>
      have hs1 : s1 = (FetchState.fetch_aux_indexedlog_go store
          (s.pending_all FileAttributes.AUX) s).1 := by rw [heq]
      rw [hs1]
      exact wf_other_error e hgo

theorem wf_fetch_lfs_go {req ra} (store : LfsFetchFun) (typ : LocalStoreType) :
    ∀ (sks : List StoreKey) (s s2 : FetchState),
      FetchState.fetch_lfs_go store typ sks s = some s2 → WF req ra s →
      (∀ sk ∈ sks, ∀ k, sk.maybe_into_key = some k → k ∈ req) → WF req ra s2
  | [], s, s2, hrun, h, _ => by
    cases hrun
    exact h
  | sk :: rest, s, s2, hrun, h, hks => by
    have hrest : ∀ j ∈ rest, ∀ k, j.maybe_into_key = some k → k ∈ req :=
      fun j hj => hks j (List.mem_cons_of_mem _ hj)
    have hrun2 : (match sk.maybe_into_key with
      | Option.none => (Option.none : Option FetchState)
      | some k =>
        match store sk with
        | Res.ok (some entry) => FetchState.fetch_lfs_go store typ rest (s.found_lfs k entry typ)
        | Res.ok Option.none => FetchState.fetch_lfs_go store typ rest s
        | Res.err e => FetchState.fetch_lfs_go store typ rest (s.keyed_error k e)) = some s2 :=
      hrun
    split at hrun2
    next => cases hrun2
    next k hmk =>
      have hk : k ∈ req := hks sk (List.mem_cons_self _ _) k hmk
      split at hrun2
      next entry _ =>
        exact wf_fetch_lfs_go store typ rest _ s2 hrun2 (wf_found_lfs k entry typ h hk) hrest
      next _ => exact wf_fetch_lfs_go store typ rest s s2 hrun2 h hrest
      next e _ =>
        exact wf_fetch_lfs_go store typ rest _ s2 hrun2 (wf_keyed_error k e h hk) hrest

theorem wf_fetch_lfs {req ra s} (store : LfsFetchFun) (typ : LocalStoreType) (s2 : FetchState)
    (hrun : s.fetch_lfs store typ = some s2) (h : WF req ra s) : WF req ra s2 := by
  have hrun2 : (if (s.pending_storekey FileAttributes.CONTENT).isEmpty then some s
      else FetchState.fetch_lfs_go store typ (s.pending_storekey FileAttributes.CONTENT) s) =
      some s2 := hrun
  split at hrun2
  · cases hrun2
    exact h
  · exact wf_fetch_lfs_go store typ _ s s2 hrun2 h
      (fun sk hsk k hk => h.1.pending_sub k (mem_pending_storekey hsk hk))

theorem wf_fetch_memcache_fold {req ra} :
    ∀ (rs : List (Res McData)) (s : FetchState), WF req ra s →
      (∀ d, Res.ok d ∈ rs → d.key ∈ req) →
      WF req ra (rs.foldl
        (fun s1 r =>
          match r with
          | Res.ok d => s1.found_memcache d
          | Res.err e => s1.other_error e) s)
  | [], s, h, _ => h
  | r :: rest, s, h, hks => by
    have hrest : ∀ d, Res.ok d ∈ rest → d.key ∈ req :=
      fun d hd => hks d (List.mem_cons_of_mem _ hd)
    rw [List.foldl_cons]
    cases r with
    | ok d =>
      exact wf_fetch_memcache_fold rest _
        (wf_found_memcache d h (hks d (List.mem_cons_self _ _))) hrest
    | err e => exact wf_fetch_memcache_fold rest _ (wf_other_error e h) hrest

theorem wf_fetch_memcache {req ra s} (store : MemcacheOracle) (h : WF req ra s)
    (hora : ∀ rs, store (s.pending_nonlfs FileAttributes.CONTENT) = Res.ok rs →
      ∀ d, Res.ok d ∈ rs → d.key ∈ s.pending_nonlfs FileAttributes.CONTENT) :
    WF req ra (s.fetch_memcache store) := by
  show WF req ra (if (s.pending_nonlfs FileAttributes.CONTENT).isEmpty then s
    else match store (s.pending_nonlfs FileAttributes.CONTENT) with
      | Res.err e => s.other_error e
      | Res.ok results =>
        results.foldl
          (fun s1 r =>
            match r with
            | Res.ok d => s1.found_memcache d
            | Res.err e => s1.other_error e) s)
  split
  · exact h
  · split
    next e _ => exact wf_other_error e h
    next results hst =>
      exact wf_fetch_memcache_fold results s h
        (fun d hd => h.1.pending_sub d.key (mem_pending_nonlfs (hora results hst d hd)))

theorem wf_fetch_edenapi_fold {req ra} :
    ∀ (es : List FileEntry) (s : FetchState), WF req ra s →
      (∀ e ∈ es, e.key ∈ req) →
      WF req ra (es.foldl (fun s1 e => s1.found_edenapi e) s)
  | [], s, h, _ => h
  | e :: rest, s, h, hks => by
    have hrest : ∀ d ∈ rest, d.key ∈ req := fun d hd => hks d (List.mem_cons_of_mem _ hd)
    rw [List.foldl_cons]
    exact wf_fetch_edenapi_fold rest _ (wf_found_edenapi e h (hks e (List.mem_cons_self _ _)))
      hrest

theorem wf_fetch_edenapi {req ra s} (store : EdenApiOracle) (h : WF req ra s)
    (hora : ∀ es, store (s.pending_nonlfs FileAttributes.CONTENT) = Res.ok es →
      ∀ e ∈ es, e.key ∈ s.pending_nonlfs FileAttributes.CONTENT) :
    WF req ra (s.fetch_edenapi store) := by
  show WF req ra (if (s.pending_nonlfs FileAttributes.CONTENT).isEmpty then s
    else match store (s.pending_nonlfs FileAttributes.CONTENT) with
      | Res.err e => s.other_error e
      | Res.ok entries => entries.foldl (fun s1 e => s1.found_edenapi e) s)
  split
  · exact h
  · split
    next e _ => exact wf_other_error e h
    next entries hst =>
      exact wf_fetch_edenapi_fold entries s h
        (fun d hd => h.1.pending_sub d.key (mem_pending_nonlfs (hora entries hst d hd)))

theorem wf_fetch_lfs_remote {req ra s} (store : LfsRemoteOracle)
    (loc cache : Option LfsStoreOracle) (s2 : FetchState)
    (hrun : s.fetch_lfs_remote store loc cache = some s2) (h : WF req ra s) : WF req ra s2 := by
  simp only [FetchState.fetch_lfs_remote] at hrun
  have hrun2 := hrun
  split at hrun2
  · cases hrun2
    exact h
  · split at hrun2
    next e _ =>
      cases hrun2
      exact wf_other_error e h
    next deliveries _ =>
      split at hrun2
      next => cases hrun2
      next e _ =>
        cases hrun2
        exact wf_other_error e h
      next =>
        split at hrun2
        next hr1 =>
          cases hrun2
        next s1 hr1 =>
          have h1 : WF req ra s1 := by
            cases cache with
            | none =>
              simp only at hr1
              cases hr1
              exact h
            | some stc => exact wf_fetch_lfs stc.retry_view LocalStoreType.cache s1 hr1 h
          cases loc with
          | none =>
            cases hrun2
            exact h1
          | some st => exact wf_fetch_lfs st.retry_view LocalStoreType.loc s2 hrun2 h1

theorem wf_fetch_contentstore_go {req ra} (store : ContentStoreOracle) :
    ∀ (sks : List StoreKey) (s s2 : FetchState),
      FetchState.fetch_contentstore_go store sks s = some s2 → WF req ra s →
      (∀ sk ∈ sks, ∀ k, sk.maybe_into_key = some k → k ∈ req) → WF req ra s2
  | [], s, s2, hrun, h, _ => by
    cases hrun
    exact h
  | sk :: rest, s, s2, hrun, h, hks => by
    have hrest : ∀ j ∈ rest, ∀ k, j.maybe_into_key = some k → k ∈ req :=
      fun j hj => hks j (List.mem_cons_of_mem _ hj)
    have hrun2 : (match sk.maybe_into_key with
      | Option.none => (Option.none : Option FetchState)
      | some k =>
        match store.get sk with
        | Res.err e => FetchState.fetch_contentstore_go store rest (s.keyed_error k e)
        | Res.ok ob =>
          match store.get_meta sk with
          | Res.err e => FetchState.fetch_contentstore_go store rest (s.keyed_error k e)
          | Res.ok om =>
            match ob, om with
            | some b, some m =>
              FetchState.fetch_contentstore_go store rest (s.found_contentstore k b m)
            | _, _ => FetchState.fetch_contentstore_go store rest s) = some s2 := hrun
    split at hrun2
    next => cases hrun2
    next k hmk =>
      have hk : k ∈ req := hks sk (List.mem_cons_self _ _) k hmk
      split at hrun2
      next e _ =>
        exact wf_fetch_contentstore_go store rest _ s2 hrun2 (wf_keyed_error k e h hk) hrest
      next ob _ =>
        split at hrun2
        next e _ =>
          exact wf_fetch_contentstore_go store rest _ s2 hrun2 (wf_keyed_error k e h hk) hrest
        next om _ =>
          split at hrun2 <;>
            first
              | exact wf_fetch_contentstore_go store rest _ s2 hrun2
                  (wf_found_contentstore _ _ _ h hk) hrest
              | exact wf_fetch_contentstore_go store rest s s2 hrun2 h hrest

theorem wf_fetch_contentstore {req ra s} (store : ContentStoreOracle) (s2 : FetchState)
    (hrun : s.fetch_contentstore store = some s2) (h : WF req ra s) : WF req ra s2 := by
  have hrun2 : (if (s.pending_storekey FileAttributes.CONTENT).isEmpty then some s
      else match store.prefetch (s.pending_storekey FileAttributes.CONTENT) with
        | Res.err e => some (s.other_error e)
        | Res.ok _ =>
          FetchState.fetch_contentstore_go store (s.pending_storekey FileAttributes.CONTENT) s) =
      some s2 := hrun
  split at hrun2
  · cases hrun2
    exact h
  · split at hrun2
    next e _ =>
      cases hrun2
      exact wf_other_error e h
    next =>
      exact wf_fetch_contentstore_go store _ s s2 hrun2 h
        (fun sk hsk k hk => h.1.pending_sub k (mem_pending_storekey hsk hk))

/-! Invariant preservation by the derivation pass. -/

theorem nodup_key_unique {α : Type} (l : List (Key × α)) (hnd : (l.map Prod.fst).Nodup)
    {p q : Key × α} (hp : p ∈ l) (hq : q ∈ l) (he : p.1 = q.1) : p = q := by
  have h1 := alookup_of_mem_nodup l p.1 p.2 hnd hp
  have h2 := alookup_of_mem_nodup l q.1 q.2 hnd hq
  rw [he] at h1
  rw [h1] at h2
  have h3 : p.2 = q.2 := Option.some_inj.mp h2
  rcases p with ⟨p1, p2⟩
  rcases q with ⟨q1, q2⟩
  simp only at he h3
  rw [he, h3]

/-- Completing a key inside the derivation loop preserves the invariant of
the virtual state (the state with the rebuilt `found` list). -/
theorem wf_derive_mark {req ra} (s : FetchState) (k : Key) (v3 : StoreFile)
    (acc rest : List (Key × StoreFile))
    (h : WF req ra { s with found := acc ++ (k, v3) :: rest })
    (hhas : v3.attrs.has ra = true) :
    WF req ra { s.mark_complete k with found := acc ++ (k, v3) :: rest } := by
  have hmemv : ((k, v3) : Key × StoreFile) ∈ acc ++ (k, v3) :: rest :=
    List.mem_append_right _ (List.mem_cons_self _ _)
  have h0 := wf0_mark_complete k h.1
    ⟨(k, v3), hmemv, rfl⟩
    (fun p hp hpk => by
      have hpe := nodup_key_unique _ h.1.nodup hp hmemv hpk
      rw [hpe]
      exact hhas)
  have hq0 := wfq_mark_complete k h.2
  obtain ⟨hraS, herrS, hkoS, hedS, hmcS, hcaS⟩ := mark_complete_stable s k
  obtain ⟨hraV, herrV, hkoV, hedV, hmcV, hcaV⟩ :=
    mark_complete_stable { s with found := acc ++ (k, v3) :: rest } k
  refine ⟨WF0_congr h0 _ ?_ ?_ ?_ ?_ ?_, WFQ_congr hq0 _ ?_ ?_ ?_ ?_⟩
  · rw [mark_complete_pending, mark_complete_pending]
  · rw [hraS, hraV]
  · rw [mark_complete_found]
  · rw [herrS, herrV]
  · rw [hkoS, hkoV]
  · rw [mark_complete_found]
  · rw [hedS, hedV]
  · rw [hmcS, hmcV]
  · rw [hcaS, hcaV]

/-- Successfully computing aux data for one entry preserves the invariant of
the virtual state and extends `computed_aux_data` soundly. -/
theorem wf_derive_compute {req ra} (s : FetchState) (k : Key) (v v2 : StoreFile)
    (o : LocalStoreType) (acc rest : List (Key × StoreFile))
    (h : WF req ra { s with found := acc ++ (k, v) :: rest })
    (hcomp : v.compute_aux_data = Res.ok v2) :
    WF req ra { s with computed_aux_data := ainsert s.computed_aux_data k o,
                       found := acc ++ (k, v2) :: rest } := by
  have hmemv : ((k, v) : Key × StoreFile) ∈ acc ++ (k, v) :: rest :=
    List.mem_append_right _ (List.mem_cons_self _ _)
  have hmemv2 : ((k, v2) : Key × StoreFile) ∈ acc ++ (k, v2) :: rest :=
    List.mem_append_right _ (List.mem_cons_self _ _)
  have htrans : ∀ p : Key × StoreFile, p ∈ acc ++ (k, v2) :: rest →
      p = (k, v2) ∨ (p ∈ acc ++ (k, v) :: rest ∧ p ≠ (k, v2)) := by
    intro p hp
    rcases List.mem_append.mp hp with h1 | h1
    · by_cases hpv : p = (k, v2)
      · exact Or.inl hpv
      · exact Or.inr ⟨List.mem_append_left _ h1, hpv⟩
    · rcases List.mem_cons.mp h1 with h2 | h2
      · exact Or.inl h2
      · by_cases hpv : p = (k, v2)
        · exact Or.inl hpv
        · exact Or.inr ⟨List.mem_append_right _ (List.mem_cons_of_mem _ h2), hpv⟩

  have htrans2 : ∀ p : Key × StoreFile, p ∈ acc ++ (k, v) :: rest →
      p = (k, v) ∨ p ∈ acc ++ (k, v2) :: rest := by
    intro p hp
    rcases List.mem_append.mp hp with h1 | h1
    · exact Or.inr (List.mem_append_left _ h1)
    · rcases List.mem_cons.mp h1 with h2 | h2
      · exact Or.inl h2
      · exact Or.inr (List.mem_append_right _ (List.mem_cons_of_mem _ h2))
  have hkeys : (List.map Prod.fst (acc ++ (k, v2) :: rest)) =
      (List.map Prod.fst (acc ++ (k, v) :: rest)) := by
    simp [List.map_append]
  have hv2has : ∀ c, v.attrs.has c = true → v2.attrs.has c = true :=
    fun c hc => compute_aux_has v v2 c hcomp hc
  refine ⟨⟨h.1.req_attrs, h.1.pending_sub, ?_, h.1.err_sub, ?_, ?_, ?_, ?_⟩, ?_, ?_, ?_⟩
  · intro p hp
    rcases htrans p hp with h1 | ⟨h1, _⟩
    · rw [h1]
      exact h.1.found_sub (k, v) hmemv
    · exact h.1.found_sub p h1
  · intro j hj
    rcases h.1.cover j hj with h1 | ⟨p, hp, he⟩
    · exact Or.inl h1
    · rcases htrans2 p hp with h2 | h2
      · refine Or.inr ⟨(k, v2), hmemv2, ?_⟩
        rw [← he, h2]
      · exact Or.inr ⟨p, h2, he⟩
  · rw [hkeys]
    exact h.1.nodup
  · intro p hp hnp
    rcases htrans p hp with h1 | ⟨h1, _⟩
    · rw [h1]
      rw [h1] at hnp
      exact hv2has ra (h.1.complete_sound (k, v) hmemv hnp)
    · exact h.1.complete_sound p h1 hnp
  · intro p hp
    rcases htrans p hp with h1 | ⟨h1, _⟩
    · rw [h1]
      exact h.1.origin_sub (k, v) hmemv
    · exact h.1.origin_sub p h1
  · intro j hj
    rcases h.2.edenapi_sub j hj with ⟨p, hp, he⟩
    rcases htrans2 p hp with h2 | h2
    · refine ⟨(k, v2), hmemv2, ?_⟩
      rw [← he, h2]
    · exact ⟨p, h2, he⟩
  · intro j hj
    rcases h.2.memcache_sub j hj with ⟨p, hp, he⟩
    rcases htrans2 p hp with h2 | h2
    · refine ⟨(k, v2), hmemv2, ?_⟩
      rw [← he, h2]
    · exact ⟨p, h2, he⟩
  · intro q hq
    rcases mem_ainsert s.computed_aux_data k o q hq with ⟨hqo, hqk⟩ | hqk
    · rcases h.2.computed_aux q hqo with ⟨p, hp, he, haux⟩
      rcases htrans2 p hp with h2 | h2
      · exact absurd (by rw [← he, h2]) hqk
      · exact ⟨p, h2, he, haux⟩
    · exact ⟨(k, v2), hmemv2, hqk.symm, (compute_aux_shape v v2 hcomp).2⟩

/-- The step glue of the derivation loop: after processing one entry, either
mark it complete or leave it, then recurse. -/
theorem wf_derive_tail {req ra} (rest acc : List (Key × StoreFile)) (s : FetchState)
    (k : Key) (v3 : StoreFile)
    (h : WF req ra { s with found := acc ++ (k, v3) :: rest })
    (IH : ∀ (acc2 : List (Key × StoreFile)) (st : FetchState),
      WF req ra { st with found := acc2 ++ rest } →
      ∃ s2, FetchState.derive_go ra acc2 rest st = some s2 ∧ WF req ra s2) :
    ∃ s2, FetchState.derive_go ra (acc ++ [(k, v3)]) rest
        (if v3.attrs.has ra then s.mark_complete k else s) = some s2 ∧ WF req ra s2 := by
  have hassoc : (acc ++ [(k, v3)]) ++ rest = acc ++ (k, v3) :: rest := by
    rw [List.append_assoc]
    rfl
  by_cases hhas : v3.attrs.has ra = true
  · rw [if_pos hhas]
    apply IH
    rw [hassoc]
    exact wf_derive_mark s k v3 acc rest h hhas
  · rw [if_neg hhas]
    apply IH
    rw [hassoc]
    exact h

theorem wf_derive_go {req ra} :
    ∀ (rest acc : List (Key × StoreFile)) (s : FetchState),
      WF req ra { s with found := acc ++ rest } →
      ∃ s2, FetchState.derive_go ra acc rest s = some s2 ∧ WF req ra s2
  | [], acc, s, h => by
    refine ⟨{ s with found := acc }, rfl, ?_⟩
    rw [List.append_nil] at h
    exact h
  | (k, v) :: rest, acc, s, h => by
    have hmemv : ((k, v) : Key × StoreFile) ∈ acc ++ (k, v) :: rest :=
      List.mem_append_right _ (List.mem_cons_self _ _)
    have hk : k ∈ req := h.1.found_sub (k, v) hmemv
    show ∃ s2, (match (if (v.attrs.with_computable.bitand (ra.sub v.attrs)).aux_data then
        match v.compute_aux_data with
        | Res.err e => some (v, s.keyed_error k e)
        | Res.ok v2 =>
          match s.key_origin k with
          | Option.none => Option.none
          | some o => some (v2, { s with computed_aux_data := ainsert s.computed_aux_data k o })
      else some (v, s)) with
      | Option.none => (Option.none : Option FetchState)
      | some (v3, s3) =>
        FetchState.derive_go ra (acc ++ [(k, v3)]) rest
          (if v3.attrs.has ra then s3.mark_complete k else s3)) = some s2 ∧ WF req ra s2
    by_cases hact : (v.attrs.with_computable.bitand (ra.sub v.attrs)).aux_data = true
    · rw [if_pos hact]
      cases hcomp : v.compute_aux_data with
      | err e =>
        show ∃ s2, FetchState.derive_go ra (acc ++ [(k, v)]) rest
            (if v.attrs.has ra then (s.keyed_error k e).mark_complete k else s.keyed_error k e) =
            some s2 ∧ WF req ra s2
        refine wf_derive_tail rest acc (s.keyed_error k e) k v ?_
          (fun acc2 st h2 => wf_derive_go rest acc2 st h2)
        exact wf_keyed_error k e h hk
      | ok v2 =>
        cases hko : s.key_origin k with
        | none =>
          exfalso
          have := h.1.origin_sub (k, v) hmemv
          rw [hko] at this
          cases this
        | some o =>
          show ∃ s2, FetchState.derive_go ra (acc ++ [(k, v2)]) rest
              (if v2.attrs.has ra then
                ({ s with computed_aux_data :=
                    ainsert s.computed_aux_data k o }).mark_complete k
              else { s with computed_aux_data := ainsert s.computed_aux_data k o }) =
              some s2 ∧ WF req ra s2
          refine wf_derive_tail rest acc _ k v2 ?_
            (fun acc2 st h2 => wf_derive_go rest acc2 st h2)
          exact wf_derive_compute s k v v2 o acc rest h hcomp
    · rw [if_neg hact]
      show ∃ s2, FetchState.derive_go ra (acc ++ [(k, v)]) rest
          (if v.attrs.has ra then s.mark_complete k else s) = some s2 ∧ WF req ra s2
      exact wf_derive_tail rest acc s k v h (fun acc2 st h2 => wf_derive_go rest acc2 st h2)

theorem wf_derive_computable {req ra s} (h : WF req ra s) :
    ∃ s2, s.derive_computable = some s2 ∧ WF req ra s2 := by
  unfold FetchState.derive_computable
  split
  · have h2 : WF req ra { s with found := ([] : List (Key × StoreFile)) ++ s.found } := by
      rw [List.nil_append]
      exact h
    have h3 := wf_derive_go s.found [] s h2
    rw [h.1.req_attrs]
    exact h3
  · exact ⟨s, rfl, h⟩

/-! The write-back pass cannot panic on a well-formed state, and preserves
the invariant. -/

theorem wtc_edenapi_go_isSome (s : FetchState) (b1 b2 : Bool) :
    ∀ (ks : List Key) (w : CacheWrites), (∀ k ∈ ks, ∃ p ∈ s.found, p.1 = k) →
      (s.wtc_edenapi_go b1 b2 ks w).isSome = true
  | [], _, _ => rfl
  | k :: rest, w, hks => by
    have hlk : (alookup s.found k).isSome = true :=
      (alookup_isSome _ _).mpr (hks k (List.mem_cons_self _ _))
    have hrest : ∀ j ∈ rest, ∃ p ∈ s.found, p.1 = j :=
      fun j hj => hks j (List.mem_cons_of_mem _ hj)
    unfold FetchState.wtc_edenapi_go
    split
    next heq =>
      rw [heq] at hlk
      exact absurd hlk (by simp)
    next sf heq =>
      split
      · exact wtc_edenapi_go_isSome s b1 b2 rest _ hrest
      · split <;> exact wtc_edenapi_go_isSome s b1 b2 rest _ hrest

theorem wtc_memcache_go_isSome (s : FetchState) (b1 : Bool) :
    ∀ (ks : List Key) (w : CacheWrites), (∀ k ∈ ks, ∃ p ∈ s.found, p.1 = k) →
      (s.wtc_memcache_go b1 ks w).isSome = true
  | [], _, _ => rfl
  | k :: rest, w, hks => by
    have hlk : (alookup s.found k).isSome = true :=
      (alookup_isSome _ _).mpr (hks k (List.mem_cons_self _ _))
    have hrest : ∀ j ∈ rest, ∃ p ∈ s.found, p.1 = j :=
      fun j hj => hks j (List.mem_cons_of_mem _ hj)
    unfold FetchState.wtc_memcache_go
    split
    next heq =>
      rw [heq] at hlk
      exact absurd hlk (by simp)
    next sf heq =>
      split
      · exact wtc_memcache_go_isSome s b1 rest _ hrest
      · split <;> exact wtc_memcache_go_isSome s b1 rest _ hrest

theorem wtc_aux_go_isSome (s : FetchState) (b3 b4 : Bool)
    (hnd : (s.found.map Prod.fst).Nodup) :
    ∀ (ks : List (Key × LocalStoreType)) (w : CacheWrites),
      (∀ q ∈ ks, ∃ p ∈ s.found, p.1 = q.1 ∧ p.2.aux_data.isSome = true) →
      (s.wtc_aux_go b3 b4 ks w).isSome = true
  | [], _, _ => rfl
  | (k, origin) :: rest, w, hks => by
    obtain ⟨p, hp, hpk, haux⟩ := hks (k, origin) (List.mem_cons_self _ _)
    have halo : alookup s.found k = some p.2 := by
      have h2 := alookup_of_mem_nodup _ _ _ hnd hp
      rwa [show p.1 = k from hpk] at h2
    have hrest : ∀ q ∈ rest, ∃ p ∈ s.found, p.1 = q.1 ∧ p.2.aux_data.isSome = true :=
      fun q hq => hks q (List.mem_cons_of_mem _ hq)
    unfold FetchState.wtc_aux_go
    split
    next heq =>
      rw [heq] at halo
      cases halo
    next sf heq =>
      have hsf : sf = p.2 := by
        rw [heq] at halo
        exact Option.some_inj.mp halo
      split
      next heq2 =>
        rw [hsf] at heq2
        rw [heq2] at haux
        exact absurd haux (by simp)
      next aux heq2 => exact wtc_aux_go_isSome s b3 b4 hnd rest _ hrest

theorem wf_write_to_cache {req ra s} (h : WF req ra s) (b1 b2 b3 b4 : Bool) :
    ∃ s2 w, s.write_to_cache b1 b2 b3 b4 = some (s2, w) ∧ WF req ra s2 := by
  obtain ⟨w1, hw1⟩ := Option.isSome_iff_exists.mp
    (wtc_edenapi_go_isSome s b1 b2 s.found_in_edenapi CacheWrites.empty h.2.edenapi_sub)
  obtain ⟨w2, hw2⟩ := Option.isSome_iff_exists.mp
    (wtc_memcache_go_isSome s b1 s.found_in_memcache w1 h.2.memcache_sub)
  obtain ⟨w3, hw3⟩ := Option.isSome_iff_exists.mp
    (wtc_aux_go_isSome s b3 b4 h.1.nodup s.computed_aux_data w2 h.2.computed_aux)
  have hpair : s.write_to_cache b1 b2 b3 b4 =
      some ({ s with
        found_in_edenapi := []
        found_in_memcache := []
        computed_aux_data := [] }, w3) := by
    unfold FetchState.write_to_cache
    simp only [hw1, hw2, hw3]
  refine ⟨_, w3, hpair, WF0_congr h.1 _ rfl rfl rfl rfl rfl, ?_, ?_, ?_⟩
  · intro k hk
    exact absurd hk (List.not_mem_nil k)
  · intro k hk
    exact absurd hk (List.not_mem_nil k)
  · intro q hq
    exact absurd hq (List.not_mem_nil q)

/-! The initial state is well-formed, and the invariant is carried through
the whole orchestration. -/

theorem wf_new (keys : List Key) (p : ExtStoredPolicy) (attrs : FileAttributes) :
    WF keys attrs (FetchState.new keys p attrs) := by
  refine ⟨⟨rfl, fun k hk => hk, ?_, ?_, fun k hk => Or.inl hk, ?_, ?_, ?_⟩, ?_, ?_, ?_⟩
  · intro p hp
    exact absurd hp (List.not_mem_nil p)
  · intro p hp
    exact absurd hp (List.not_mem_nil p)
  · exact List.nodup_nil
  · intro p hp _
    exact absurd hp (List.not_mem_nil p)
  · intro p hp
    exact absurd hp (List.not_mem_nil p)
  · intro k hk
    exact absurd hk (List.not_mem_nil k)
  · intro k hk
    exact absurd hk (List.not_mem_nil k)
  · intro q hq
    exact absurd hq (List.not_mem_nil q)

theorem phase_step_wf {req ra} {σ : Type} (o : Option σ) (t : StoreTag)
    (f : σ → FetchState → Option FetchState) (x : Option FetchState × List StoreTag)
    (hx : ∀ s, x.1 = some s → WF req ra s)
    (hf : ∀ st, o = some st → ∀ s s2, WF req ra s → f st s = some s2 → WF req ra s2) :
    ∀ s2, (phase_step o t f x).1 = some s2 → WF req ra s2 := by
  intro s2 h2
  cases o with
  | none => exact hx s2 h2
  | some st =>
    have h3 : x.1.bind (f st) = some s2 := h2
    rcases Option.bind_eq_some.mp h3 with ⟨s, hs, hfs⟩
    exact hf st rfl s s2 (hx s hs) hfs

/-- The well-behavedness contract of the memcache collaborator: every record
it yields is for one of the queried keys. -/
def memcache_contract (fs : FileStore) : Prop :=
  ∀ st, fs.memcache = some st →
    ∀ ks rs, st ks = Res.ok rs → ∀ d, Res.ok d ∈ rs → d.key ∈ ks

/-- The well-behavedness contract of the remote content API: every entry it
returns is for one of the queried keys. -/
def edenapi_contract (fs : FileStore) : Prop :=
  ∀ st, fs.edenapi = some st →
    ∀ ks es, st ks = Res.ok es → ∀ e ∈ es, e.key ∈ ks

theorem wf_run_stores {fs : FileStore} {keys : List Key} {attrs : FileAttributes}
    {s0 : FetchState} (hmc : memcache_contract fs) (hed : edenapi_contract fs)
    (h0 : WF keys attrs s0) :
    ∀ s, (fs.run_stores s0).1 = some s → WF keys attrs s := by
  have w0 : ∀ s, ((some s0, ([] : List StoreTag)) :
      Option FetchState × List StoreTag).1 = some s → WF keys attrs s := by
    intro s hs
    cases hs
    exact h0
  have w1 := phase_step_wf fs.aux_cache StoreTag.aux_cache
    (fun st s => some (s.fetch_aux_indexedlog st)) _ w0
    (fun st _ s s2 hs hf2 => by
      cases hf2
      exact wf_fetch_aux_indexedlog st hs)
  have w2 := phase_step_wf fs.aux_local StoreTag.aux_local
    (fun st s => some (s.fetch_aux_indexedlog st)) _ w1
    (fun st _ s s2 hs hf2 => by
      cases hf2
      exact wf_fetch_aux_indexedlog st hs)
  have w3 := phase_step_wf fs.indexedlog_cache StoreTag.indexedlog_cache
    (fun st s => some (s.fetch_indexedlog st LocalStoreType.cache)) _ w2
    (fun st _ s s2 hs hf2 => by
      cases hf2
      exact wf_fetch_indexedlog st LocalStoreType.cache hs)
  have w4 := phase_step_wf fs.indexedlog_local StoreTag.indexedlog_local
    (fun st s => some (s.fetch_indexedlog st LocalStoreType.loc)) _ w3
    (fun st _ s s2 hs hf2 => by
      cases hf2
      exact wf_fetch_indexedlog st LocalStoreType.loc hs)
  have w5 := phase_step_wf fs.lfs_cache StoreTag.lfs_cache
    (fun st s => s.fetch_lfs st.fetch_available LocalStoreType.cache) _ w4
    (fun st _ s s2 hs hf2 => wf_fetch_lfs st.fetch_available LocalStoreType.cache s2 hf2 hs)
  have w6 := phase_step_wf fs.lfs_local StoreTag.lfs_local
    (fun st s => s.fetch_lfs st.fetch_available LocalStoreType.loc) _ w5
    (fun st _ s s2 hs hf2 => wf_fetch_lfs st.fetch_available LocalStoreType.loc s2 hf2 hs)
  have w7 := phase_step_wf fs.memcache StoreTag.memcache
    (fun st s => some (s.fetch_memcache st)) _ w6
    (fun st hst s s2 hs hf2 => by
      cases hf2
      refine wf_fetch_memcache st hs ?_
      intro rs hrs d hd
      exact hmc st hst _ rs hrs d hd)
  have w8 := phase_step_wf fs.edenapi StoreTag.edenapi
    (fun st s => some (s.fetch_edenapi st)) _ w7
    (fun st hst s s2 hs hf2 => by
      cases hf2
      refine wf_fetch_edenapi st hs ?_
      intro es hes e he
      exact hed st hst _ es hes e he)
  have w9 := phase_step_wf fs.lfs_remote StoreTag.lfs_remote
    (fun st s => s.fetch_lfs_remote st fs.lfs_local fs.lfs_cache) _ w8
    (fun st _ s s2 hs hf2 => wf_fetch_lfs_remote st fs.lfs_local fs.lfs_cache s2 hf2 hs)
  have w10 := phase_step_wf fs.contentstore StoreTag.contentstore
    (fun st s => s.fetch_contentstore st) _ w9
    (fun st _ s s2 hs hf2 => wf_fetch_contentstore st s2 hf2 hs)
  exact w10

theorem wf_fetch_state_final {fs : FileStore} {keys : List Key} {attrs : FileAttributes}
    {s : FetchState} (hmc : memcache_contract fs) (hed : edenapi_contract fs)
    (hrun : fs.fetch_state_final keys attrs = some s) : WF keys attrs s := by
  unfold FileStore.fetch_state_final at hrun
  rcases Option.bind_eq_some.mp hrun with ⟨s1, h1, h2⟩
  rcases Option.bind_eq_some.mp h1 with ⟨sr, hr, hd⟩
  have hw := wf_run_stores hmc hed (wf_new keys fs.extstored_policy attrs) sr hr
  obtain ⟨sd, hsd, hwd⟩ := wf_derive_computable hw
  rw [hsd] at hd
  cases hd
  obtain ⟨s2, w2, hs2, hw2⟩ := wf_write_to_cache hwd
    (fs.indexedlog_cache.isSome && fs.cache_to_local_cache)
    (fs.memcache.isSome && fs.cache_to_memcache) fs.aux_cache.isSome fs.aux_local.isSome
  rw [hs2] at h2
  simp only [Option.map_some'] at h2
  cases h2
  exact hw2

/-! ## Properties of `finish` -/

theorem mem_or_insert_empty (l : List (Key × List Nat)) (k : Key) (q : Key × List Nat)
    (h : q ∈ or_insert_empty l k) : q ∈ l ∨ q = (k, []) := by
  unfold or_insert_empty at h
  split at h
  · exact Or.inl h
  · rcases List.mem_append.mp h with h1 | h1
    · exact Or.inl h1
    · exact Or.inr (List.mem_singleton.mp h1)

theorem mem_foldl_or_insert :
    ∀ (ks : List Key) (l : List (Key × List Nat)) (q : Key × List Nat),
      q ∈ ks.foldl or_insert_empty l → q ∈ l ∨ q.1 ∈ ks
  | [], l, q, h => Or.inl h
  | k :: rest, l, q, h => by
    rw [List.foldl_cons] at h
    rcases mem_foldl_or_insert rest (or_insert_empty l k) q h with h1 | h1
    · rcases mem_or_insert_empty l k q h1 with h2 | h2
      · exact Or.inl h2
      · refine Or.inr ?_
        rw [h2]
        exact List.mem_cons_self _ _
    · exact Or.inr (List.mem_cons_of_mem _ h1)

theorem keys_or_insert_empty (l : List (Key × List Nat)) (k : Key) (j : Key) :
    (∃ q ∈ or_insert_empty l k, q.1 = j) ↔ (∃ q ∈ l, q.1 = j) ∨ j = k := by
  unfold or_insert_empty
  split
  next hf =>
    constructor
    · exact fun h => Or.inl h
    · rintro (h | rfl)
      · exact h
      · have hiso : (alookup l j).isSome = true := by
          unfold alookup
          rw [Option.isSome_map']
          exact hf
        exact (alookup_isSome l j).mp hiso
  next hf =>
    constructor
    · rintro ⟨q, hq, he⟩
      rcases List.mem_append.mp hq with h1 | h1
      · exact Or.inl ⟨q, h1, he⟩
      · rw [List.mem_singleton.mp h1] at he
        exact Or.inr he.symm
    · rintro (⟨q, hq, he⟩ | rfl)
      · exact ⟨q, List.mem_append_left _ hq, he⟩
      · exact ⟨(j, []), List.mem_append_right _ (List.mem_singleton.mpr rfl), rfl⟩

theorem keys_foldl_or_insert :
    ∀ (ks : List Key) (l : List (Key × List Nat)) (j : Key),
      (∃ q ∈ ks.foldl or_insert_empty l, q.1 = j) ↔ (∃ q ∈ l, q.1 = j) ∨ j ∈ ks
  | [], l, j => by simp
  | k :: rest, l, j => by
    rw [List.foldl_cons]
    rw [keys_foldl_or_insert rest (or_insert_empty l k) j]
    rw [keys_or_insert_empty l k j]
    constructor
    · rintro ((h | rfl) | h)
      · exact Or.inl h
      · exact Or.inr (List.mem_cons_self _ _)
      · exact Or.inr (List.mem_cons_of_mem _ h)
    · rintro (h | h)
      · exact Or.inl (Or.inl h)
      · rcases List.mem_cons.mp h with rfl | h1
        · exact Or.inl (Or.inr rfl)
        · exact Or.inr h1

theorem finish_complete_mem (s : FetchState) (k : Key) :
    (∃ p ∈ s.finish.complete, p.1 = k) ↔ (∃ p ∈ s.found, p.1 = k) ∧ k ∉ s.pending := by
  show (∃ p ∈ (s.found.filter (fun p => decide (p.1 ∉ s.pending))).map
      (fun p => (p.1, p.2.mask s.request_attrs)), p.1 = k) ↔ _
  constructor
  · rintro ⟨p, hp, he⟩
    rcases List.mem_map.mp hp with ⟨p0, hp0, hpe⟩
    have hp0f := List.mem_filter.mp hp0
    have hfst : p.1 = p0.1 := by rw [← hpe]
    refine ⟨⟨p0, hp0f.1, hfst ▸ he⟩, ?_⟩
    have := of_decide_eq_true hp0f.2
    rw [← he, hfst]
    exact this
  · rintro ⟨⟨p0, hp0, he⟩, hnp⟩
    refine ⟨(p0.1, p0.2.mask s.request_attrs),
      List.mem_map.mpr ⟨p0, List.mem_filter.mpr ⟨hp0, decide_eq_true (he ▸ hnp)⟩, rfl⟩, he⟩

theorem finish_complete_val (s : FetchState) (p : Key × StoreFile)
    (hp : p ∈ s.finish.complete) :
    ∃ p0 ∈ s.found, p0.1 ∉ s.pending ∧ p = (p0.1, p0.2.mask s.request_attrs) := by
  have hp2 : p ∈ (s.found.filter (fun p => decide (p.1 ∉ s.pending))).map
      (fun p => (p.1, p.2.mask s.request_attrs)) := hp
  rcases List.mem_map.mp hp2 with ⟨p0, hp0, hpe⟩
  have hp0f := List.mem_filter.mp hp0
  exact ⟨p0, hp0f.1, of_decide_eq_true hp0f.2, hpe.symm⟩

theorem finish_incomplete_mem (s : FetchState) (k : Key) :
    (∃ q ∈ s.finish.incomplete, q.1 = k) ↔
      ((∃ q ∈ s.errors.fetch_errors, q.1 = k) ∨ k ∈ s.pending) ∧
        ¬ ((∃ p ∈ s.found, p.1 = k) ∧ k ∉ s.pending) := by
  have hfound1 : (∃ p ∈ s.found.filter (fun p => decide (p.1 ∉ s.pending)), p.1 = k) ↔
      ((∃ p ∈ s.found, p.1 = k) ∧ k ∉ s.pending) := by
    constructor
    · rintro ⟨p, hp, he⟩
      have hpf := List.mem_filter.mp hp
      exact ⟨⟨p, hpf.1, he⟩, he ▸ of_decide_eq_true hpf.2⟩
    · rintro ⟨⟨p, hp, he⟩, hnp⟩
      exact ⟨p, List.mem_filter.mpr ⟨hp, decide_eq_true (he ▸ hnp)⟩, he⟩
  simp only [FetchState.finish]
  constructor
  · rintro ⟨q, hq, he⟩
    have hqf := List.mem_filter.mp hq
    have h1 : (∃ q2 ∈ s.pending.foldl or_insert_empty s.errors.fetch_errors, q2.1 = k) :=
      ⟨q, hqf.1, he⟩
    have h2 := (keys_foldl_or_insert s.pending s.errors.fetch_errors k).mp h1
    refine ⟨h2, ?_⟩
    intro hcon
    rcases hfound1.mpr hcon with ⟨p, hp, hpe⟩
    exact of_decide_eq_true hqf.2 p hp (he ▸ hpe)
  · rintro ⟨h1, h2⟩
    rcases (keys_foldl_or_insert s.pending s.errors.fetch_errors k).mpr h1 with ⟨q, hq, he⟩
    refine ⟨q, List.mem_filter.mpr ⟨hq, decide_eq_true ?_⟩, he⟩
    intro p hp hpe
    exact h2 (hfound1.mp ⟨p, hp, he ▸ hpe⟩)

theorem finish_incomplete_sub {req ra s} (h : WF req ra s) (q : Key × List Nat)
    (hq : q ∈ s.finish.incomplete) : q.1 ∈ req := by
  simp only [FetchState.finish] at hq
  have hq3 := (List.mem_filter.mp hq).1
  rcases mem_foldl_or_insert s.pending s.errors.fetch_errors q hq3 with h1 | h1
  · exact h.1.err_sub q h1
  · exact h.1.pending_sub q.1 h1

/-- The core partition fact: a requested key lands in exactly one of
`complete` and `incomplete`. -/
theorem finish_partition {req ra s} (h : WF req ra s) (k : Key) (hk : k ∈ req) :
    (∃ p ∈ s.finish.complete, p.1 = k) ↔ ¬ (∃ q ∈ s.finish.incomplete, q.1 = k) := by
  rw [finish_complete_mem, finish_incomplete_mem]
  by_cases hp : k ∈ s.pending
  · constructor
    · rintro ⟨_, hnp⟩
      exact absurd hp hnp
    · intro hn
      exfalso
      exact hn ⟨Or.inr hp, fun ⟨_, hnp⟩ => hnp hp⟩
  · have hf : ∃ p ∈ s.found, p.1 = k := by
      rcases h.1.cover k hk with h1 | h1
      · exact absurd h1 hp
      · exact h1
    constructor
    · rintro ⟨_, _⟩ ⟨_, hcon⟩
      exact hcon ⟨hf, hp⟩
    · intro _
      exact ⟨hf, hp⟩

/-- A key of `complete` never appears in `incomplete`. -/
theorem finish_disjoint (s : FetchState) (k : Key)
    (h : ∃ p ∈ s.finish.complete, p.1 = k) : ¬ (∃ q ∈ s.finish.incomplete, q.1 = k) := by
  rw [finish_complete_mem] at h
  rw [finish_incomplete_mem]
  rintro ⟨_, hcon⟩
  exact hcon h

/-! ## The claims -/

/-- The consultation order stated by the specification. -/
def consult_order : List StoreTag :=
  [StoreTag.aux_cache, StoreTag.aux_local, StoreTag.indexedlog_cache,
   StoreTag.indexedlog_local, StoreTag.lfs_cache, StoreTag.lfs_local,
   StoreTag.memcache, StoreTag.edenapi, StoreTag.lfs_remote, StoreTag.contentstore]

/-- Which store handles are configured. -/
def store_configured (fs : FileStore) : StoreTag → Bool
  | StoreTag.aux_cache => fs.aux_cache.isSome
  | StoreTag.aux_local => fs.aux_local.isSome
  | StoreTag.indexedlog_cache => fs.indexedlog_cache.isSome
  | StoreTag.indexedlog_local => fs.indexedlog_local.isSome
  | StoreTag.lfs_cache => fs.lfs_cache.isSome
  | StoreTag.lfs_local => fs.lfs_local.isSome
  | StoreTag.memcache => fs.memcache.isSome
  | StoreTag.edenapi => fs.edenapi.isSome
  | StoreTag.lfs_remote => fs.lfs_remote.isSome
  | StoreTag.contentstore => fs.contentstore.isSome
  | StoreTag.derivation => true
  | StoreTag.writeback => true

/-- C4: `fetch` consults the configured stores in exactly the order
aux-cache, aux-local, ilog-cache, ilog-local, lfs-cache, lfs-local,
memcache, remote-API, remote-LFS, legacy-store — skipping any store that is
absent — and then runs the derivation pass strictly before the write-back
pass.  The trace records each phase as the orchestrator invokes it. -/
theorem phase_step_trace {σ : Type} (o : Option σ) (t : StoreTag)
    (f : σ → FetchState → Option FetchState) (x : Option FetchState × List StoreTag) :
    (phase_step o t f x).2 = x.2 ++ (if o.isSome then [t] else []) := by
  cases o <;> simp [phase_step]

theorem filter_cons_append {α : Type} (p : α → Bool) (a : α) (l : List α) :
    List.filter p (a :: l) = (if p a = true then [a] else []) ++ l.filter p := by
  by_cases h : p a = true <;> simp [h]

theorem c4_fetch_order (fs : FileStore) (keys : List Key) (attrs : FileAttributes) :
    (fs.fetch_traced keys attrs).2 =
      consult_order.filter (store_configured fs) ++
        [StoreTag.derivation, StoreTag.writeback] := by
  have hshape : (fs.fetch_traced keys attrs).2 =
      ((fs.run_stores (FetchState.new keys fs.extstored_policy attrs)).2 ++
        [StoreTag.derivation]) ++ [StoreTag.writeback] := rfl
  rw [hshape]
  unfold FileStore.run_stores
  rw [phase_step_trace, phase_step_trace, phase_step_trace, phase_step_trace,
    phase_step_trace, phase_step_trace, phase_step_trace, phase_step_trace,
    phase_step_trace, phase_step_trace]
  simp only [consult_order, filter_cons_append, List.filter_nil, store_configured,
    List.append_assoc, List.nil_append, List.append_nil, List.singleton_append,
    List.cons_append]

/-- The progress-predicate transform `C` the spec describes:
`with_computable` when aux derivation is enabled, the identity otherwise. -/
def spec_c (s : FetchState) (a : FileAttributes) : FileAttributes :=
  if s.compute_aux_data then a.with_computable else a

/-- The attributes currently present for a key, `NONE` when there is no
record (the `A` of the spec's formula). -/
def spec_available (s : FetchState) (k : Key) : FileAttributes :=
  (alookup s.found k).elim FileAttributes.NONE StoreFile.attrs

/-- The progress predicate exactly as the specification words it:
`((request_attrs ∖ C(A)) ∩ C(F)).any()`. -/
def spec_pending (s : FetchState) (k : Key) (f : FileAttributes) : Bool :=
  ((s.request_attrs.sub (spec_c s (spec_available s k))).bitand (spec_c s f)).any

/-- C6: the code's pending predicate coincides with the spec formula, and
`pending_nonlfs` enumerates exactly the pending keys without a discovered
LFS pointer. -/
theorem c6_pending_pred (s : FetchState) (k : Key) (f : FileAttributes) :
    (s.pending_for k f = spec_pending s k f) ∧
    (∀ j : Key, j ∈ s.pending_nonlfs f ↔
      j ∈ s.pending ∧ alookup s.lfs_pointers j = none ∧ s.pending_for j f = true) := by
  constructor
  · unfold FetchState.pending_for spec_pending spec_c spec_available
    by_cases hf : f.none = true
    · rw [if_pos hf]
      have hfn : f = FileAttributes.NONE := by
        unfold FileAttributes.none at hf
        exact beq_iff_eq.mp hf
      subst hfn
      have hc : ∀ b : FileAttributes,
          (if s.compute_aux_data then FileAttributes.NONE.with_computable
            else FileAttributes.NONE) = FileAttributes.NONE := by
        intro _
        split <;> rfl
      rw [hc FileAttributes.NONE]
      rcases hsub : s.request_attrs.sub
        (if s.compute_aux_data then
          ((alookup s.found k).elim FileAttributes.NONE StoreFile.attrs).with_computable
        else (alookup s.found k).elim FileAttributes.NONE StoreFile.attrs) with ⟨c1, c2⟩
      cases c1 <;> cases c2 <;> rfl
    · rw [if_neg hf]
  · intro j
    unfold FetchState.pending_nonlfs
    by_cases hf : f.none = true
    · rw [if_pos hf]
      constructor
      · intro hj
        exact absurd hj (List.not_mem_nil j)
      · rintro ⟨_, _, hpf⟩
        unfold FetchState.pending_for at hpf
        rw [if_pos hf] at hpf
        cases hpf
    · rw [if_neg hf]
      constructor
      · intro hj
        have h1 := List.mem_filter.mp hj
        have h2 := List.mem_filter.mp h1.1
        exact ⟨h2.1, Option.isNone_iff_eq_none.mp (of_decide_eq_true (by
          have := h2.2
          simpa using this)), h1.2⟩
      · rintro ⟨h1, h2, h3⟩
        refine List.mem_filter.mpr ⟨List.mem_filter.mpr ⟨h1, ?_⟩, h3⟩
        simp [h2]

theorem alookup_cons {α : Type} (p : Key × α) (l : List (Key × α)) (k : Key) :
    alookup (p :: l) k = if p.1 = k then some p.2 else alookup l k := by
  unfold alookup
  simp only [List.find?]
  cases hd : decide (p.1 = k) with
  | true => rw [if_pos (of_decide_eq_true hd)]; rfl
  | false => rw [if_neg (of_decide_eq_false hd)]

theorem alookup_map_update (l : List (Key × StoreFile)) (k : Key) (v : StoreFile) (r : StoreFile)
    (h : alookup l k = some r) :
    alookup (l.map (fun p => if p.1 = k then (p.1, v) else p)) k = some v := by
  induction l with
  | nil => cases h
  | cons p rest ih =>
    simp only [List.map_cons]
    rw [alookup_cons] at h
    by_cases hpk : p.1 = k
    · rw [if_pos hpk]
      rw [alookup_cons]
      rw [if_pos (show ((p.1, v).1 = k) from hpk)]
    · rw [if_neg hpk] at h ⊢
      rw [alookup_cons, if_neg hpk]
      exact ih h

/-- C7: `StoreFile` merge is left-biased (`sf | sf = sf`,
`sf | default = sf`), and `found_attributes` on an occupied key replaces the
record `r` with `sf | r` — the newly arrived fields win. -/
theorem c7_storefile_merge :
    (∀ sf : StoreFile, sf.bitor sf = sf ∧ sf.bitor StoreFile.default = sf) ∧
    (∀ (s : FetchState) (k : Key) (sf r : StoreFile) (typ : Option LocalStoreType),
      alookup s.found k = some r →
      alookup (s.found_attributes k sf typ).found k = some (sf.bitor r)) := by
  constructor
  · intro sf
    rcases sf with ⟨c, a⟩
    constructor
    · cases c <;> cases a <;> rfl
    · cases c <;> cases a <;> rfl
  · intro s k sf r typ halo
    simp only [FetchState.found_attributes]
    split
    next r2 halo2 =>
      have hr : r2 = r := by
        rw [halo] at halo2
        exact (Option.some_inj.mp halo2).symm
      subst hr
      split
      next =>
        rw [mark_complete_found]
        exact alookup_map_update s.found k (sf.bitor r2) r2 halo
      next => exact alookup_map_update s.found k (sf.bitor r2) r2 halo
    next halo2 =>
      rw [halo] at halo2
      cases halo2

/-- C1: for every requested key `k`, after `fetch` returns via `finish`, `k`
appears in exactly one of `complete` and `incomplete`; and no key of
`complete` appears in the (per-key) error map `incomplete` — a key that
eventually obtained all requested attributes has its accumulated errors
discarded.  The two contract hypotheses say the memcache and remote-API
collaborators answer only for queried keys. -/
theorem c1_finish_partition (fs : FileStore) (keys : List Key) (attrs : FileAttributes)
    (hmc : memcache_contract fs) (hed : edenapi_contract fs)
    (res : FileStoreFetch) (hrun : fs.fetch keys attrs = some res) :
    (∀ k ∈ keys, (∃ p ∈ res.complete, p.1 = k) ↔ ¬ (∃ q ∈ res.incomplete, q.1 = k)) ∧
    (∀ k : Key, (∃ p ∈ res.complete, p.1 = k) → ¬ (∃ q ∈ res.incomplete, q.1 = k)) := by
  unfold FileStore.fetch at hrun
  rcases Option.map_eq_some'.mp hrun with ⟨s, hs, hres⟩
  have hw := wf_fetch_state_final hmc hed hs
  subst hres
  exact ⟨fun k hk => finish_partition hw k hk, fun k => finish_disjoint s k⟩

/-- C2: every `StoreFile` in `complete` has all the requested attributes and
no field outside them — it equals its own mask to `request_attrs`. -/
theorem c2_complete_masked (fs : FileStore) (keys : List Key) (attrs : FileAttributes)
    (hmc : memcache_contract fs) (hed : edenapi_contract fs)
    (res : FileStoreFetch) (hrun : fs.fetch keys attrs = some res) :
    ∀ p ∈ res.complete, p.2.attrs.has attrs = true ∧ p.2.mask attrs = p.2 := by
  unfold FileStore.fetch at hrun
  rcases Option.map_eq_some'.mp hrun with ⟨s, hs, hres⟩
  have hw := wf_fetch_state_final hmc hed hs
  subst hres
  intro p hp
  obtain ⟨p0, hp0, hnp, hpe⟩ := finish_complete_val s p hp
  have hhas : p0.2.attrs.has attrs = true := by
    have h1 := hw.1.complete_sound p0 hp0 hnp
    exact h1
  have hra : s.request_attrs = attrs := hw.1.req_attrs
  rw [hpe]
  constructor
  · show (p0.2.mask s.request_attrs).attrs.has attrs = true
    rw [hra]
    exact mask_has p0.2 attrs hhas
  · show (p0.2.mask s.request_attrs).mask attrs = p0.2.mask s.request_attrs
    rw [hra]
    exact mask_idem p0.2 attrs

/-- C8: `prefetch` performs a batch fetch for the `content` attribute over
the key forms that carry a `Key`, and returns exactly (as `StoreKey::HgId`)
the keys that did not complete. -/
theorem c8_prefetch (fs : FileStore) (keys : List StoreKey)
    (hmc : memcache_contract fs) (hed : edenapi_contract fs)
    (out : List StoreKey) (hrun : fs.prefetch keys = some out) :
    ∃ res, fs.fetch (keys.filterMap StoreKey.maybe_into_key) FileAttributes.CONTENT =
        some res ∧
      out = res.incomplete.map (fun q => StoreKey.hgId q.1) ∧
      (∀ sk : StoreKey, sk ∈ out ↔
        ∃ k, k ∈ keys.filterMap StoreKey.maybe_into_key ∧ sk = StoreKey.hgId k ∧
          ¬ (∃ p ∈ res.complete, p.1 = k)) := by
  unfold FileStore.prefetch at hrun
  rcases Option.map_eq_some'.mp hrun with ⟨res, hres, hout⟩
  have hrun2 := hres
  unfold FileStore.fetch at hrun2
  rcases Option.map_eq_some'.mp hrun2 with ⟨s, hs, hfin⟩
  have hw := wf_fetch_state_final hmc hed hs
  subst hfin
  refine ⟨s.finish, hres, hout.symm, ?_⟩
  intro sk
  constructor
  · intro hsk
    rw [← hout] at hsk
    rcases List.mem_map.mp hsk with ⟨q, hq, he⟩
    refine ⟨q.1, finish_incomplete_sub hw q hq, he.symm, ?_⟩
    intro hcomp
    exact finish_disjoint s q.1 hcomp ⟨q, hq, rfl⟩
  · rintro ⟨k, hk, rfl, hncomp⟩
    have hinc : ∃ q ∈ s.finish.incomplete, q.1 = k := by
      by_contra hni
      exact hncomp ((finish_partition hw k hk).mpr hni)
    rcases hinc with ⟨q, hq, he⟩
    rw [← hout]
    exact List.mem_map.mpr ⟨q, hq, by rw [he]⟩

/-- C10: after the store-consultation phases, every key of `found` has an
entry in `key_origin` (because `found_attributes` records an origin before
inserting into `found`), so the unchecked indexing `self.key_origin[key]` in
`derive_computable` never panics. -/
theorem c10_key_origin_safety (fs : FileStore) (keys : List Key) (attrs : FileAttributes)
    (hmc : memcache_contract fs) (hed : edenapi_contract fs) (sr : FetchState)
    (hrun : (fs.run_stores (FetchState.new keys fs.extstored_policy attrs)).1 = some sr) :
    (∀ p ∈ sr.found, (sr.key_origin p.1).isSome = true) ∧
    sr.derive_computable ≠ none := by
  have hw := wf_run_stores hmc hed (wf_new keys fs.extstored_policy attrs) sr hrun
  obtain ⟨sd, hsd, _⟩ := wf_derive_computable hw
  refine ⟨hw.1.origin_sub, ?_⟩
  rw [hsd]
  exact Option.some_ne_none sd

/-- C9: when `write_to_cache` runs (after the stores and the derivation
pass), every key of `found_in_edenapi` and `found_in_memcache` has an entry
in `found`, and every key of `computed_aux_data` has an entry in `found`
whose `aux_data` is `Some`; hence the unchecked indexing `self.found[&key]`
and the `aux_data` unwrap in `write_to_cache` never panic. -/
theorem c9_write_to_cache_safety (fs : FileStore) (keys : List Key) (attrs : FileAttributes)
    (hmc : memcache_contract fs) (hed : edenapi_contract fs) (sr s1 : FetchState)
    (hrun : (fs.run_stores (FetchState.new keys fs.extstored_policy attrs)).1 = some sr)
    (hder : sr.derive_computable = some s1) :
    (∀ k ∈ s1.found_in_edenapi, ∃ p ∈ s1.found, p.1 = k) ∧
    (∀ k ∈ s1.found_in_memcache, ∃ p ∈ s1.found, p.1 = k) ∧
    (∀ q ∈ s1.computed_aux_data, ∃ p ∈ s1.found, p.1 = q.1 ∧ p.2.aux_data.isSome = true) ∧
    (∀ b1 b2 b3 b4 : Bool, s1.write_to_cache b1 b2 b3 b4 ≠ none) := by
  have hw := wf_run_stores hmc hed (wf_new keys fs.extstored_policy attrs) sr hrun
  obtain ⟨sd, hsd, hwd⟩ := wf_derive_computable hw
  rw [hsd] at hder
  cases hder
  refine ⟨hwd.2.edenapi_sub, hwd.2.memcache_sub, hwd.2.computed_aux, ?_⟩
  intro b1 b2 b3 b4
  obtain ⟨s2, w, hw2, _⟩ := wf_write_to_cache hwd b1 b2 b3 b4
  rw [hw2]
  exact Option.some_ne_none _

/-- An entry `write_batch` can process: not pointer-flagged, and the store
its size routes it to is configured. -/
def entry_ok (threshold : Option Nat) (hl hi : Bool) (x : Key × Bytes × Metadata) : Bool :=
  !x.2.2.is_lfs && (if exceeds_threshold threshold x.2.1 then hl else hi)

theorem write_batch_go_spec (threshold : Option Nat) (hl hi : Bool) :
    ∀ entries : List (Key × Bytes × Metadata),
      ((write_batch_go threshold hl hi entries).2 = none ↔
        ∀ x ∈ entries, entry_ok threshold hl hi x = true) ∧
      (∀ en ∈ (write_batch_go threshold hl hi entries).1.indexedlog_writes,
        en.metadata.is_lfs = false) ∧
      (∀ ptr ∈ (write_batch_go threshold hl hi entries).1.lfs_pointer_writes,
        ∃ x ∈ entries, x.2.2.is_lfs = false ∧ exceeds_threshold threshold x.2.1 = true ∧
          ptr = (lfs_from_hg_file_blob x.1.hgid x.2.1).1) ∧
      (threshold = none → (write_batch_go threshold hl hi entries).1.lfs_blob_writes = [] ∧
        (write_batch_go threshold hl hi entries).1.lfs_pointer_writes = []) ∧
      ((write_batch_go threshold hl hi entries).2 = none →
        (write_batch_go threshold hl hi entries).1.indexedlog_writes =
          (entries.filter (fun x => !(exceeds_threshold threshold x.2.1))).map
            (fun x => Entry.new x.1 x.2.1 x.2.2) ∧
        (write_batch_go threshold hl hi entries).1.lfs_pointer_writes =
          (entries.filter (fun x => exceeds_threshold threshold x.2.1)).map
            (fun x => (lfs_from_hg_file_blob x.1.hgid x.2.1).1) ∧
        (write_batch_go threshold hl hi entries).1.lfs_blob_writes =
          (entries.filter (fun x => exceeds_threshold threshold x.2.1)).map
            (fun x => ((lfs_from_hg_file_blob x.1.hgid x.2.1).1.sha256,
              (lfs_from_hg_file_blob x.1.hgid x.2.1).2)))
  | [] => by
    refine ⟨?_, ?_, ?_, ?_, ?_⟩
    · simp [write_batch_go, BatchWrites.empty]
    · intro en hen
      exact absurd hen (List.not_mem_nil en)
    · intro ptr hptr
      exact absurd hptr (List.not_mem_nil ptr)
    · intro _
      exact ⟨rfl, rfl⟩
    · intro _
      exact ⟨rfl, rfl, rfl⟩
  | (k, b, m) :: rest => by
    obtain ⟨ih1, ih2, ih3, ih4, ih5⟩ := write_batch_go_spec threshold hl hi rest
    by_cases hm : m.is_lfs = true
    · have hshow : write_batch_go threshold hl hi ((k, b, m) :: rest) =
          (BatchWrites.empty, some 107) := by
        rw [write_batch_go]
        rw [if_pos hm]
      rw [hshow]
      refine ⟨?_, ?_, ?_, ?_, ?_⟩
      · simp only [BatchWrites.empty]
        constructor
        · intro hcon
          cases hcon
        · intro hall
          have := hall (k, b, m) (List.mem_cons_self _ _)
          unfold entry_ok at this
          rw [hm] at this
          cases this
      · intro en hen
        exact absurd hen (List.not_mem_nil en)
      · intro ptr hptr
        exact absurd hptr (List.not_mem_nil ptr)
      · intro _
        exact ⟨rfl, rfl⟩
      · intro hcon
        cases hcon
    · by_cases hex : exceeds_threshold threshold b = true
      · by_cases hhl : hl = true
        · have hshow : write_batch_go threshold hl hi ((k, b, m) :: rest) =
              ({ (write_batch_go threshold hl hi rest).1 with
                  lfs_blob_writes := ((lfs_from_hg_file_blob k.hgid b).1.sha256,
                    (lfs_from_hg_file_blob k.hgid b).2) ::
                    (write_batch_go threshold hl hi rest).1.lfs_blob_writes
                  lfs_pointer_writes := (lfs_from_hg_file_blob k.hgid b).1 ::
                    (write_batch_go threshold hl hi rest).1.lfs_pointer_writes },
                (write_batch_go threshold hl hi rest).2) := by
            rw [write_batch_go]
            rw [if_neg (by simp [hm]), if_pos hex, if_pos hhl]
          rw [hshow]
          refine ⟨?_, ih2, ?_, ?_, ?_⟩
          · rw [ih1]
            constructor
            · intro hall x hx
              rcases List.mem_cons.mp hx with rfl | hx2
              · unfold entry_ok
                have hmf : m.is_lfs = false := by simpa using hm
                simp only [hmf, Bool.not_false, Bool.true_and]
                rw [if_pos (show exceeds_threshold threshold (k, b, m).2.1 = true from hex)]
                exact hhl
              · exact hall x hx2
            · intro hall x hx
              exact hall x (List.mem_cons_of_mem _ hx)
          · intro ptr hptr
            rcases List.mem_cons.mp hptr with rfl | hptr2
            · exact ⟨(k, b, m), List.mem_cons_self _ _, by simpa using hm, hex, rfl⟩
            · rcases ih3 ptr hptr2 with ⟨x, hx, h1, h2, h3⟩
              exact ⟨x, List.mem_cons_of_mem _ hx, h1, h2, h3⟩
          · intro hth
            exfalso
            rw [hth] at hex
            unfold exceeds_threshold at hex
            cases hex
          · intro hnone
            obtain ⟨he1, he2, he3⟩ := ih5 hnone
            refine ⟨?_, ?_, ?_⟩
            · rw [List.filter_cons, if_neg (by simp [hex])]
              exact he1
            · rw [List.filter_cons, if_pos (by simp [hex]), List.map_cons]
              rw [he2]
            · rw [List.filter_cons, if_pos (by simp [hex]), List.map_cons]
              rw [he3]
        · have hshow : write_batch_go threshold hl hi ((k, b, m) :: rest) =
              (BatchWrites.empty, some 108) := by
            rw [write_batch_go]
            rw [if_neg (by simp [hm]), if_pos hex, if_neg hhl]
          rw [hshow]
          refine ⟨?_, ?_, ?_, ?_, ?_⟩
          · constructor
            · intro hcon
              cases hcon
            · intro hall
              have := hall (k, b, m) (List.mem_cons_self _ _)
              unfold entry_ok at this
              rw [hex] at this
              simp only [hm] at this
              simp only [Bool.not_false, Bool.true_and, if_true] at this
              exact absurd this hhl
          · intro en hen
            exact absurd hen (List.not_mem_nil en)
          · intro ptr hptr
            exact absurd hptr (List.not_mem_nil ptr)
          · intro _
            exact ⟨rfl, rfl⟩
          · intro hcon
            cases hcon
      · by_cases hhi : hi = true
        · have hshow : write_batch_go threshold hl hi ((k, b, m) :: rest) =
              ({ (write_batch_go threshold hl hi rest).1 with
                  indexedlog_writes := Entry.new k b m ::
                    (write_batch_go threshold hl hi rest).1.indexedlog_writes },
                (write_batch_go threshold hl hi rest).2) := by
            rw [write_batch_go]
            rw [if_neg (by simp [hm]), if_neg hex, if_pos hhi]
          rw [hshow]
          refine ⟨?_, ?_, ?_, ?_, ?_⟩
          · rw [ih1]
            constructor
            · intro hall x hx
              rcases List.mem_cons.mp hx with rfl | hx2
              · unfold entry_ok
                have hmf : m.is_lfs = false := by simpa using hm
                simp only [hmf, Bool.not_false, Bool.true_and]
                rw [if_neg (show ¬ exceeds_threshold threshold (k, b, m).2.1 = true from hex)]
                exact hhi
              · exact hall x hx2
            · intro hall x hx
              exact hall x (List.mem_cons_of_mem _ hx)
          · intro en hen
            rcases List.mem_cons.mp hen with rfl | hen2
            · simpa [Entry.new] using hm
            · exact ih2 en hen2
          · intro ptr hptr
            rcases ih3 ptr hptr with ⟨x, hx, h1, h2, h3⟩
            exact ⟨x, List.mem_cons_of_mem _ hx, h1, h2, h3⟩
          · intro hth
            exact ih4 hth
          · intro hnone
            obtain ⟨he1, he2, he3⟩ := ih5 hnone
            refine ⟨?_, ?_, ?_⟩
            · rw [List.filter_cons, if_pos (by simp [hex]), List.map_cons]
              rw [he1]
            · rw [List.filter_cons, if_neg (by simp [hex])]
              exact he2
            · rw [List.filter_cons, if_neg (by simp [hex])]
              exact he3
        · have hshow : write_batch_go threshold hl hi ((k, b, m) :: rest) =
              (BatchWrites.empty, some 109) := by
            rw [write_batch_go]
            rw [if_neg (by simp [hm]), if_neg hex, if_neg hhi]
          rw [hshow]
          refine ⟨?_, ?_, ?_, ?_, ?_⟩
          · constructor
            · intro hcon
              cases hcon
            · intro hall
              have := hall (k, b, m) (List.mem_cons_self _ _)
              unfold entry_ok at this
              rw [if_neg hex] at this
              simp only [hm] at this
              simp only [Bool.not_false, Bool.true_and] at this
              exact absurd this hhi
          · intro en hen
            exact absurd hen (List.not_mem_nil en)
          · intro ptr hptr
            exact absurd hptr (List.not_mem_nil ptr)
          · intro _
            exact ⟨rfl, rfl⟩
          · intro hcon
            cases hcon

/-- C5: `write_batch` errors whenever an entry is pointer-flagged, and never
writes such an entry (every inline-log write is non-pointer, every LFS write
stems from a non-pointer entry exceeding the threshold); on success every
accepted entry above the threshold is written to lfs-local as blob plus
computed pointer (and not to ilog-local), every other accepted entry becomes
an inline-log write, and an unset threshold disables LFS routing entirely. -/
theorem c5_write_batch (fs : FileStore) (entries : List (Key × Bytes × Metadata)) :
    ((∃ x ∈ entries, x.2.2.is_lfs = true) → (fs.write_batch entries).2.isSome = true) ∧
    (∀ en ∈ (fs.write_batch entries).1.indexedlog_writes, en.metadata.is_lfs = false) ∧
    (∀ ptr ∈ (fs.write_batch entries).1.lfs_pointer_writes,
      ∃ x ∈ entries, x.2.2.is_lfs = false ∧
        exceeds_threshold fs.lfs_threshold_bytes x.2.1 = true ∧
        ptr = (lfs_from_hg_file_blob x.1.hgid x.2.1).1) ∧
    (fs.lfs_threshold_bytes = none → (fs.write_batch entries).1.lfs_blob_writes = [] ∧
      (fs.write_batch entries).1.lfs_pointer_writes = []) ∧
    ((fs.write_batch entries).2 = none →
      (fs.write_batch entries).1.indexedlog_writes =
        (entries.filter (fun x => !(exceeds_threshold fs.lfs_threshold_bytes x.2.1))).map
          (fun x => Entry.new x.1 x.2.1 x.2.2) ∧
      (fs.write_batch entries).1.lfs_pointer_writes =
        (entries.filter (fun x => exceeds_threshold fs.lfs_threshold_bytes x.2.1)).map
          (fun x => (lfs_from_hg_file_blob x.1.hgid x.2.1).1) ∧
      (fs.write_batch entries).1.lfs_blob_writes =
        (entries.filter (fun x => exceeds_threshold fs.lfs_threshold_bytes x.2.1)).map
          (fun x => ((lfs_from_hg_file_blob x.1.hgid x.2.1).1.sha256,
            (lfs_from_hg_file_blob x.1.hgid x.2.1).2))) := by
  obtain ⟨h1, h2, h3, h4, h5⟩ :=
    write_batch_go_spec fs.lfs_threshold_bytes fs.lfs_local.isSome
      fs.indexedlog_local.isSome entries
  refine ⟨?_, h2, h3, h4, h5⟩
  rintro ⟨x, hx, hxl⟩
  cases ho : (fs.write_batch entries).2 with
  | some e => rfl
  | none =>
    have hall := h1.mp ho
    have := hall x hx
    unfold entry_ok at this
    rw [hxl] at this
    cases this

/-! ### C3: the pointer-origin table

The per-write policy holds (a `Cache` recording overwrites, a `Local`
recording only fills a vacant entry, and no single operation downgrades
`Cache` to `Local`), but the temporal reading — "throughout the fetch an
entry once set to `Cache` is never changed to `Local`" — fails:
`mark_complete` removes a completed key's pointer-origin entry, after which
a later `Local` recording for the same SHA-256 (from another key whose
pointer has the same content hash) re-creates the entry as `Local`.  The
configuration below exhibits this inside a single `fetch`. -/

def c3_k1 : Key := ⟨1, 1⟩

def c3_k2 : Key := ⟨2, 2⟩

/-- An indexed-log cache entry for `c3_k1` flagged as an LFS pointer whose
parsed SHA-256 is 77. -/
def c3_entry : Entry :=
  { key := c3_k1
    content := Res.ok [77, 2048]
    metadata := { size := none, is_lfs := true } }

def c3_ilog_cache : IndexedLogOracle := fun k =>
  if k = c3_k1 then Res.ok (some c3_entry) else Res.ok none

/-- The LFS cache holds blob and pointer for SHA-256 77 under `c3_k1`. -/
def c3_lfs_cache : LfsStoreOracle :=
  { fetch_available := fun sk =>
      if sk = StoreKey.content 77 (some c3_k1) then
        Res.ok (some (LfsStoreEntry.pointerAndBlob
          { sha256 := 77, size := 2048, hgid := 1 } [9]))
      else Res.ok none
    retry_view := fun _ => Res.ok none }

/-- The local LFS store holds only a pointer for `c3_k2`, with the same
SHA-256 77. -/
def c3_lfs_local : LfsStoreOracle :=
  { fetch_available := fun sk =>
      if sk = StoreKey.hgId c3_k2 then
        Res.ok (some (LfsStoreEntry.pointerOnly { sha256 := 77, size := 2048, hgid := 2 }))
      else Res.ok none
    retry_view := fun _ => Res.ok none }

def c3_fs : FileStore :=
  { extstored_policy := ExtStoredPolicy.use_
    lfs_threshold_bytes := none
    cache_to_local_cache := true
    cache_to_memcache := true
    indexedlog_local := none
    lfs_local := some c3_lfs_local
    indexedlog_cache := some c3_ilog_cache
    lfs_cache := some c3_lfs_cache
    memcache := none
    lfs_remote := none
    edenapi := none
    contentstore := none
    aux_local := none
    aux_cache := none }

/-- The running state of `c3_fs.run_stores` just after the indexed-log
cache consultation — syntactically the inner prefix of
`FileStore.run_stores`. -/
def c3_after_indexedlog_cache : Option FetchState × List StoreTag :=
  phase_step c3_fs.indexedlog_cache StoreTag.indexedlog_cache
    (fun st s => some (s.fetch_indexedlog st LocalStoreType.cache))
    (phase_step c3_fs.aux_local StoreTag.aux_local
      (fun st s => some (s.fetch_aux_indexedlog st))
      (phase_step c3_fs.aux_cache StoreTag.aux_cache
        (fun st s => some (s.fetch_aux_indexedlog st))
        (some (FetchState.new [c3_k1, c3_k2] c3_fs.extstored_policy FileAttributes.CONTENT),
          [])))

/-- The running state after the LFS local consultation. -/
def c3_after_lfs_local : Option FetchState × List StoreTag :=
  phase_step c3_fs.lfs_local StoreTag.lfs_local
    (fun st s => s.fetch_lfs st.fetch_available LocalStoreType.loc)
    (phase_step c3_fs.lfs_cache StoreTag.lfs_cache
      (fun st s => s.fetch_lfs st.fetch_available LocalStoreType.cache)
      (phase_step c3_fs.indexedlog_local StoreTag.indexedlog_local
        (fun st s => some (s.fetch_indexedlog st LocalStoreType.loc))
        c3_after_indexedlog_cache))

/-- C3 counterexample: in the fetch run by `c3_fs` over `[c3_k1, c3_k2]`,
the pointer-origin entry for SHA-256 77 is `Cache` after the indexed-log
cache phase and `Local` after the LFS local phase (the completed key
`c3_k1` removed the entry in between), refuting "an entry once set to
`Cache` is never changed to `Local` throughout the fetch".  The third
conjunct identifies the two intermediate states as the exact prefixes of
`run_stores`; the fourth checks the whole fetch completes. -/
theorem c3_counterexample :
    c3_after_indexedlog_cache.1.map (fun s => s.pointer_origin 77) =
      some (some LocalStoreType.cache) ∧
    c3_after_lfs_local.1.map (fun s => s.pointer_origin 77) =
      some (some LocalStoreType.loc) ∧
    c3_fs.run_stores
        (FetchState.new [c3_k1, c3_k2] c3_fs.extstored_policy FileAttributes.CONTENT) =
      phase_step c3_fs.contentstore StoreTag.contentstore
        (fun st s => s.fetch_contentstore st)
        (phase_step c3_fs.lfs_remote StoreTag.lfs_remote
          (fun st s => s.fetch_lfs_remote st c3_fs.lfs_local c3_fs.lfs_cache)
          (phase_step c3_fs.edenapi StoreTag.edenapi (fun st s => some (s.fetch_edenapi st))
            (phase_step c3_fs.memcache StoreTag.memcache
              (fun st s => some (s.fetch_memcache st)) c3_after_lfs_local))) ∧
    (c3_fs.fetch [c3_k1, c3_k2] FileAttributes.CONTENT).isSome = true :=
  ⟨rfl, rfl, rfl, rfl⟩

/-- C3 amended: recording a pointer with `Cache` scope overwrites any
existing entry for that SHA-256; recording with `Local` scope inserts only
when no entry exists (and never changes an existing entry); no single
recording or completion step changes an entry from `Cache` to `Local` —
but `mark_complete` may remove a `Cache` entry, after which a later `Local`
recording can set the same SHA-256 to `Local`. -/
theorem c3_pointer_origin_policy :
    (∀ (s : FetchState) (k : Key) (ptr : LfsPointersEntry),
      (s.found_pointer k ptr LocalStoreType.cache).pointer_origin ptr.sha256 =
        some LocalStoreType.cache) ∧
    (∀ (s : FetchState) (k : Key) (ptr : LfsPointersEntry),
      s.pointer_origin ptr.sha256 = none →
      (s.found_pointer k ptr LocalStoreType.loc).pointer_origin ptr.sha256 =
        some LocalStoreType.loc) ∧
    (∀ (s : FetchState) (k : Key) (ptr : LfsPointersEntry) (t : LocalStoreType),
      s.pointer_origin ptr.sha256 = some t →
      (s.found_pointer k ptr LocalStoreType.loc).pointer_origin ptr.sha256 = some t) ∧
    (∀ (s : FetchState) (k : Key) (ptr : LfsPointersEntry) (typ : LocalStoreType)
      (h : Sha256), s.pointer_origin h = some LocalStoreType.cache →
      (s.found_pointer k ptr typ).pointer_origin h ≠ some LocalStoreType.loc) ∧
    (∀ (s : FetchState) (k : Key) (h : Sha256),
      s.pointer_origin h = some LocalStoreType.cache →
      (s.mark_complete k).pointer_origin h ≠ some LocalStoreType.loc) := by
  refine ⟨?_, ?_, ?_, ?_, ?_⟩
  · intro s k ptr
    unfold FetchState.found_pointer
    simp
  · intro s k ptr hnone
    unfold FetchState.found_pointer
    simp only [hnone]
    simp
  · intro s k ptr t hsome
    unfold FetchState.found_pointer
    simp only [hsome]
  · intro s k ptr typ h hcache
    unfold FetchState.found_pointer
    cases typ with
    | cache =>
      by_cases hh : h = ptr.sha256
      · simp [hh]
      · simp only [if_neg hh]
        rw [hcache]
        intro hcon
        cases hcon
    | loc =>
      cases ho : s.pointer_origin ptr.sha256 with
      | some t =>
        simp only [ho]
        rw [hcache]
        intro hcon
        cases hcon
      | none =>
        simp only [ho]
        by_cases hh : h = ptr.sha256
        · rw [hh] at hcache
          rw [hcache] at ho
          cases ho
        · simp only [if_neg hh]
          rw [hcache]
          intro hcon
          cases hcon
  · intro s k h hcache
    simp only [FetchState.mark_complete]
    split
    next ptr heq =>
      by_cases hh : h = ptr.sha256
      · simp only [if_pos hh]
        intro hcon
        cases hcon
      · simp only [if_neg hh]
        rw [hcache]
        intro hcon
        cases hcon
    next =>
      rw [hcache]
      intro hcon
      cases hcon

/-! Concrete instantiations of the theorems above: a single key and small
concrete store configurations on which every hypothesis is discharged by
evaluation. -/

/-- A concrete key for the instantiations. -/
def key0 : Key := ⟨0, 0⟩

/-- A `FileStore` with no store configured at all. -/
def cfg_none : FileStore :=
  { extstored_policy := ExtStoredPolicy.use_
    lfs_threshold_bytes := none
    cache_to_local_cache := true
    cache_to_memcache := true
    indexedlog_local := none
    lfs_local := none
    indexedlog_cache := none
    lfs_cache := none
    memcache := none
    lfs_remote := none
    edenapi := none
    contentstore := none
    aux_local := none
    aux_cache := none }

theorem cfg_none_mc : memcache_contract cfg_none := fun _ h => nomatch h

theorem cfg_none_ed : edenapi_contract cfg_none := fun _ h => nomatch h

/-- With no store configured, every requested key ends in `incomplete` with
an empty error list. -/
def res_n : FileStoreFetch :=
  { complete := []
    incomplete := [(key0, [])]
    other_errors := [] }

/-- `cfg_none` plus an indexed-log cache that returns an entry with content
`[5]` for every key. -/
def cfg_ilog : FileStore :=
  { cfg_none with
      indexedlog_cache := some (fun k => Res.ok (some (Entry.new k [5] Metadata.default))) }

theorem cfg_ilog_mc : memcache_contract cfg_ilog := fun _ h => nomatch h

theorem cfg_ilog_ed : edenapi_contract cfg_ilog := fun _ h => nomatch h

/-- The `StoreFile` the indexed-log cache of `cfg_ilog` yields for `key0`. -/
def sf_i : StoreFile :=
  { content := some (LazyFile.indexedLog (Entry.new key0 [5] Metadata.default))
    aux_data := none }

/-- The fetch result of `cfg_ilog` over `[key0]`. -/
def res_i : FileStoreFetch :=
  { complete := [(key0, sf_i)]
    incomplete := []
    other_errors := [] }

/-- The state `run_stores` of `cfg_none` leaves: nothing found, `key0` still
pending. -/
def st0 : FetchState := FetchState.new [key0] ExtStoredPolicy.use_ FileAttributes.CONTENT

/-- A concrete LFS pointer with SHA-256 hash `77`. -/
def ptr77 : LfsPointersEntry := { sha256 := 77, size := 2048, hgid := 1 }

/-- An empty fetch state for the pointer-origin instantiations. -/
def sA : FetchState := FetchState.new [] ExtStoredPolicy.use_ FileAttributes.CONTENT

/-- `sA` after recording `ptr77` with `Cache` scope. -/
def sB : FetchState := sA.found_pointer c3_k1 ptr77 LocalStoreType.cache

/-- A found `StoreFile` carrying only aux data `5`. -/
def r0 : StoreFile := StoreFile.from_aux ⟨5⟩

/-- A `StoreFile` carrying only aux data `9`, to be merged onto `r0`. -/
def sf0 : StoreFile := StoreFile.from_aux ⟨9⟩

/-- A fetch state whose `found` map binds `key0` to `r0`. -/
def c7_state : FetchState :=
  { FetchState.new [key0] ExtStoredPolicy.use_ FileAttributes.AUX with found := [(key0, r0)] }

/-- A metadata record flagged as an LFS pointer. -/
def mLfs : Metadata := { size := none, is_lfs := true }

/-- C1 at `cfg_none` over `[key0]`: the fetch returns `res_n`, and `key0` is
in exactly one of `complete` and `incomplete` (here: `incomplete`). -/
theorem c1_finish_partition_witness :
    cfg_none.fetch [key0] FileAttributes.CONTENT = some res_n ∧
    ((∃ p ∈ res_n.complete, p.1 = key0) ↔ ¬ (∃ q ∈ res_n.incomplete, q.1 = key0)) :=
  ⟨rfl, (c1_finish_partition cfg_none [key0] FileAttributes.CONTENT cfg_none_mc cfg_none_ed
      res_n rfl).1 key0 (List.mem_singleton.mpr rfl)⟩

/-- C2 at `cfg_ilog` over `[key0]`: the completed `StoreFile` `sf_i` has the
requested content attribute and equals its own mask. -/
theorem c2_complete_masked_witness :
    cfg_ilog.fetch [key0] FileAttributes.CONTENT = some res_i ∧
    sf_i.attrs.has FileAttributes.CONTENT = true ∧ sf_i.mask FileAttributes.CONTENT = sf_i :=
  ⟨rfl, c2_complete_masked cfg_ilog [key0] FileAttributes.CONTENT cfg_ilog_mc cfg_ilog_ed
      res_i rfl (key0, sf_i) (List.mem_singleton.mpr rfl)⟩

/-- C3 amended policy at concrete states: recording `ptr77` with `Cache`
sets its origin to `Cache`; with `Local` on an empty state to `Local`; with
`Local` on `sB` (origin already `Cache`) the origin stays `Cache` and never
becomes `Local`; `mark_complete` never flips `Cache` to `Local` either. -/
theorem c3_pointer_origin_policy_witness :
    ((sA.found_pointer c3_k1 ptr77 LocalStoreType.cache).pointer_origin ptr77.sha256 =
      some LocalStoreType.cache) ∧
    ((sA.found_pointer c3_k1 ptr77 LocalStoreType.loc).pointer_origin ptr77.sha256 =
      some LocalStoreType.loc) ∧
    ((sB.found_pointer c3_k2 ptr77 LocalStoreType.loc).pointer_origin ptr77.sha256 =
      some LocalStoreType.cache) ∧
    ((sB.found_pointer c3_k2 ptr77 LocalStoreType.loc).pointer_origin ptr77.sha256 ≠
      some LocalStoreType.loc) ∧
    ((sB.mark_complete c3_k1).pointer_origin ptr77.sha256 ≠ some LocalStoreType.loc) :=
  ⟨c3_pointer_origin_policy.1 sA c3_k1 ptr77,
   c3_pointer_origin_policy.2.1 sA c3_k1 ptr77 rfl,
   c3_pointer_origin_policy.2.2.1 sB c3_k2 ptr77 LocalStoreType.cache rfl,
   c3_pointer_origin_policy.2.2.2.1 sB c3_k2 ptr77 LocalStoreType.loc ptr77.sha256 rfl,
   c3_pointer_origin_policy.2.2.2.2 sB c3_k1 ptr77.sha256 rfl⟩

/-- C5 at an LFS-flagged entry: `write_batch` reports an error. -/
theorem c5_write_batch_witness :
    (cfg_none.write_batch [(key0, [1, 2], mLfs)]).2.isSome = true :=
  (c5_write_batch cfg_none [(key0, [1, 2], mLfs)]).1
    ⟨(key0, [1, 2], mLfs), List.mem_singleton.mpr rfl, rfl⟩

/-- C7 at `c7_state`: merging `sf0` onto the found `r0` via
`found_attributes` stores `sf0.bitor r0` under `key0`. -/
theorem c7_storefile_merge_witness :
    alookup (c7_state.found_attributes key0 sf0 none).found key0 = some (sf0.bitor r0) :=
  c7_storefile_merge.2 c7_state key0 sf0 r0 none rfl

/-- C8 at `cfg_none` over the single store key `HgId key0`: `prefetch`
returns exactly that key, matching the incomplete set of the fetch. -/
theorem c8_prefetch_witness :
    ∃ res, cfg_none.fetch ([StoreKey.hgId key0].filterMap StoreKey.maybe_into_key)
        FileAttributes.CONTENT = some res ∧
      [StoreKey.hgId key0] = res.incomplete.map (fun q => StoreKey.hgId q.1) ∧
      (∀ sk : StoreKey, sk ∈ [StoreKey.hgId key0] ↔
        ∃ k, k ∈ [StoreKey.hgId key0].filterMap StoreKey.maybe_into_key ∧
          sk = StoreKey.hgId k ∧ ¬ (∃ p ∈ res.complete, p.1 = k)) :=
  c8_prefetch cfg_none [StoreKey.hgId key0] cfg_none_mc cfg_none_ed [StoreKey.hgId key0] rfl

/-- C9 at `cfg_none` over `[key0]`: after the stores and the derivation
pass, `write_to_cache` with every flag set succeeds. -/
theorem c9_write_to_cache_safety_witness :
    st0.write_to_cache true true true true ≠ none :=
  (c9_write_to_cache_safety cfg_none [key0] FileAttributes.CONTENT cfg_none_mc cfg_none_ed
      st0 st0 rfl rfl).2.2.2 true true true true

/-- C10 at `cfg_none` over `[key0]`: the derivation pass on the state left
by the stores does not panic. -/
theorem c10_key_origin_safety_witness :
    st0.derive_computable ≠ none :=
  (c10_key_origin_safety cfg_none [key0] FileAttributes.CONTENT cfg_none_mc cfg_none_ed
      st0 rfl).2

end Scm
